import Mathlib

/-!
Shallow embedding of the js-llmcord streaming core: the inline tool-call tag
scanner, the compatible-tools dispatch loops, the markdown completion wrapper
around the external `remend` completer, the markdown-safe split-point search,
and the chunk splitter.  JavaScript strings are modelled as `List Char`;
stateful loops become explicit state-passing functions; fallible code returns
`Option`/`Except`.  External collaborators (the markdown AST parser
`fromMarkdown`, `Intl.Segmenter`, the model provider) are parameters of the
embedded functions; `remend` is modelled from the specification.
-/

abbrev Str := List Char

/-- Backtick character, written via its code point. -/
def btick : Char := Char.ofNat 96

/-- NUL character used by `token-complete.ts` as its placeholder delimiter. -/
def nulChar : Char := Char.ofNat 0

/-- JavaScript `\s` whitespace test, restricted to the ASCII whitespace
characters (space, tab, newline, carriage return, vertical tab, form feed). -/
def isJsWs (c : Char) : Bool :=
  c = ' ' || c = '\t' || c = '\n' || c = '\r' || c = Char.ofNat 11 || c = Char.ofNat 12

/-- Leading-whitespace strip, the model of `.replace(/^[\s\n]+/u, "")`. -/
def stripLeadingWs (s : Str) : Str := s.dropWhile isJsWs

/-- Trailing-whitespace strip, the model of `.replace(/[\s\n]+$/u, "")`. -/
def trimTrailingWs (s : Str) : Str := (s.reverse.dropWhile isJsWs).reverse

/-- Both-ends trim, the model of JavaScript `String.prototype.trim`. -/
def trimWs (s : Str) : Str := trimTrailingWs (stripLeadingWs s)

/-- Literal-prefix test: `strStarts pat s` holds when `pat` is a prefix of `s`. -/
def strStarts : Str → Str → Bool
  | [], _ => true
  | _ :: _, [] => false
  | p :: ps, c :: cs => p = c && strStarts ps cs

/-- Index of the first occurrence of `pat` in `s`, the model of
`String.prototype.indexOf` / leftmost regex literal search. -/
def findSub (pat : Str) : Str → Option Nat
  | [] => if pat.isEmpty then some 0 else none
  | c :: cs => if strStarts pat (c :: cs) then some 0 else (findSub pat cs).map (· + 1)

/-- Substring-occurrence test. -/
def hasSub (pat s : Str) : Bool := (findSub pat s).isSome

/-- First-occurrence replacement, the model of `String.prototype.replace` with a
plain string pattern. -/
def replaceFirst (s pat rep : Str) : Str :=
  match findSub pat s with
  | none => s
  | some i => s.take i ++ rep ++ s.drop (i + pat.length)

/-! ### Tag scanner (streaming-compatible.ts) -/

def toolCallOpenLit : Str := "<tool-call".toList

def toolCallCloseLit : Str := "</tool-call>".toList

/-- `prefixAgrees a b` is the comparison loop shared by `maybeToolCallStart`
and `maybeToolCallEnd`: the first `min a.length b.length` characters agree. -/
def prefixAgrees : Str → Str → Bool
  | _, [] => true
  | [], _ => true
  | c :: cs, d :: ds => c = d && prefixAgrees cs ds

/-- Model of `maybeToolCallStart`: the text could still be a prefix of the
opening literal `<tool-call` (or already extends it). -/
def maybeToolCallStart (text : Str) : Bool := prefixAgrees text toolCallOpenLit

/-- Model of `maybeToolCallEnd`: the text's suffix agrees with the closing
literal `</tool-call>` on their overlap. -/
def maybeToolCallEnd (text : Str) : Bool :=
  prefixAgrees text.reverse toolCallCloseLit.reverse

structure ToolTagMatch where
  name : Str
  payload : Str
  post : Str
deriving DecidableEq

/-- Attempt to match the regex `<tool-call\s+tool="([^"]+)">([\s\S]*?)<\/tool-call>`
anchored at the start of `s` (greedy `\s+` and `[^"]+` runs, lazy payload up to
the first closing literal, mirroring the backtracking semantics). -/
def matchToolCallAt (s : Str) : Option ToolTagMatch :=
  if strStarts toolCallOpenLit s then
    let s1 := s.drop toolCallOpenLit.length
    let ws := s1.takeWhile isJsWs
    if ws.isEmpty then none
    else if strStarts "tool=\"".toList (s1.drop ws.length) then
      let s2 := s1.drop (ws.length + 6)
      let nm := s2.takeWhile (fun c => !(c = '"'))
      if nm.isEmpty then none
      else if strStarts "\">".toList (s2.drop nm.length) then
        let s3 := s2.drop (nm.length + 2)
        match findSub toolCallCloseLit s3 with
        | some k => some ⟨nm, s3.take k, s3.drop (k + toolCallCloseLit.length)⟩
        | none => none
      else none
    else none
  else none

/-- Leftmost match of the tool-call regex in `s`, the model of
`buffer.match(TOOL_CALL_SINGLE)` (plus the `indexOf`-based carry-over slice). -/
def firstToolCallMatch : Str → Option ToolTagMatch
  | [] => matchToolCallAt []
  | c :: cs =>
    match matchToolCallAt (c :: cs) with
    | some m => some m
    | none => firstToolCallMatch cs

/-- Markdown delimiter characters that must not fuse across a tool-call seam. -/
def mergeableDelims : List Char := ['*', '_'] ++ "`".toList ++ ['~', '$']

/-- Model of `shouldInsertBoundarySeparator` (empty strings become `none`). -/
def shouldInsertBoundarySeparator : Option Char → Option Char → Bool
  | some p, some n => p = n && mergeableDelims.contains p
  | _, _ => false

/-- Model of `maybeYieldBoundarySeparator` with the default `" "` separator. -/
def maybeYieldBoundarySeparator (prevLastChar : Option Char) (nextChunk : Str) : Str :=
  match nextChunk with
  | [] => []
  | n :: _ => if shouldInsertBoundarySeparator prevLastChar (some n) then [' '] else []

/-- Scanner state of one dispatch cycle of `streamTextWithCompatibleTools`
(`buffer`, `toolMatch`, `inToolCall`, `carryOver` are per-cycle; `emitted`
collects everything yielded on the plain-text stream; `lastEmittedChar` and
`pendingBoundarySeparator` persist across cycles). -/
structure ScanState where
  buffer : Str
  inToolCall : Bool
  toolMatch : Option (Str × Str)
  carryOver : Str
  emitted : Str
  lastEmittedChar : Option Char
  pendingBoundarySeparator : Bool
deriving DecidableEq

def scanInit : ScanState := ⟨[], false, none, [], [], none, false⟩

/-- Last character of `s`, falling back to `prev` when `s` is empty (the model
of `lastEmittedChar = chunk.at(-1) ?? lastEmittedChar`). -/
def lastCharOr (s : Str) (prev : Option Char) : Option Char :=
  match s.getLast? with
  | some c => some c
  | none => prev

/-- The `if (inToolCall && maybeToolCallEnd(buffer))` block: on a full regex
match, record the tool call and the carry-over; on a failed match, flush the
whole buffer to the plain-text output. -/
def scanBufferCheck (st : ScanState) : ScanState :=
  if st.inToolCall && maybeToolCallEnd st.buffer then
    match firstToolCallMatch st.buffer with
    | some m =>
        { st with carryOver := m.post, toolMatch := some (m.name, m.payload),
                  buffer := [], inToolCall := false }
    | none =>
        { st with emitted := st.emitted ++ st.buffer, buffer := [], inToolCall := false }
  else st

/-- One iteration of the `for await (const chunk of textStream)` scanner loop. -/
def scanStep (st : ScanState) (chunk : Str) : ScanState :=
  if st.inToolCall then
    scanBufferCheck { st with buffer := st.buffer ++ chunk }
  else if maybeToolCallStart chunk && st.toolMatch.isNone then
    scanBufferCheck { st with inToolCall := true, buffer := chunk }
  else
    let sep :=
      if st.pendingBoundarySeparator then
        maybeYieldBoundarySeparator st.lastEmittedChar chunk
      else []
    { st with
        emitted := st.emitted ++ sep ++ chunk,
        lastEmittedChar := lastCharOr chunk (lastCharOr sep st.lastEmittedChar),
        pendingBoundarySeparator := false }

/-- Run the scanner over a whole fragment sequence. -/
def scanRun (st : ScanState) (chunks : List Str) : ScanState := chunks.foldl scanStep st

/-- The post-loop `if (!toolMatch && buffer)` flush when the stream ends. -/
def scanFinish (st : ScanState) : ScanState :=
  if st.toolMatch.isNone && !st.buffer.isEmpty then
    if st.inToolCall then
      { st with emitted := st.emitted ++ st.buffer, buffer := [], inToolCall := false }
    else
      { st with buffer := [], inToolCall := false }
  else st

/-- The concrete tag of the spec's tag-extraction property. -/
def fetchPayloadLit : Str := ['{'] ++ "\"url\":\"x\"".toList ++ ['}']

def fetchToolTag : Str :=
  "<tool-call tool=\"fetch\">".toList ++ fetchPayloadLit ++ toolCallCloseLit

/-! ### JSON values and `JSON.parse` model (platform primitive used by
`tryParseJson`).  Numbers are kept as lexemes, so no floating-point semantics
are involved; `\uXXXX` escapes are not modelled (they make the parse fail,
which only widens the raw-string fallback). -/

inductive Jsn where
  | null : Jsn
  | bool (b : Bool) : Jsn
  | num (lexeme : Str) : Jsn
  | str (s : Str) : Jsn
  | arr (elems : List Jsn) : Jsn
  | obj (fields : List (Str × Jsn)) : Jsn

def skipJsonWs (s : Str) : Str :=
  s.dropWhile (fun c => c = ' ' || c = '\t' || c = '\n' || c = '\r')

/-- Parse a JSON string body after the opening quote; returns the decoded
content and the rest after the closing quote. -/
def parseStringBody : Nat → Str → Option (Str × Str)
  | 0, _ => none
  | _ + 1, [] => none
  | fuel + 1, c :: cs =>
    if c = '"' then some ([], cs)
    else if c = '\\' then
      match cs with
      | [] => none
      | e :: cs2 =>
        let dec : Option Char :=
          if e = '"' then some '"'
          else if e = '\\' then some '\\'
          else if e = '/' then some '/'
          else if e = 'n' then some '\n'
          else if e = 't' then some '\t'
          else if e = 'r' then some '\r'
          else if e = 'b' then some (Char.ofNat 8)
          else if e = 'f' then some (Char.ofNat 12)
          else none
        match dec with
        | some d => (parseStringBody fuel cs2).map (fun p => (d :: p.1, p.2))
        | none => none
    else (parseStringBody fuel cs).map (fun p => (c :: p.1, p.2))

def parseDigits (s : Str) : Str × Str := (s.takeWhile Char.isDigit, s.dropWhile Char.isDigit)

def parseExpPart (acc : Str) (s : Str) : Option (Str × Str) :=
  match s with
  | [] => some (acc, [])
  | c :: cs =>
    if c = 'e' || c = 'E' then
      let sgnRest : Str × Str :=
        match cs with
        | d :: ds => if d = '+' || d = '-' then ([d], ds) else ([], cs)
        | [] => ([], cs)
      let ds := parseDigits sgnRest.2
      if ds.1.isEmpty then none else some (acc ++ [c] ++ sgnRest.1 ++ ds.1, ds.2)
    else some (acc, s)

def parseFracPart (acc : Str) (s : Str) : Option (Str × Str) :=
  match s with
  | [] => some (acc, [])
  | c :: cs =>
    if c = '.' then
      let ds := parseDigits cs
      if ds.1.isEmpty then none else parseExpPart (acc ++ ['.'] ++ ds.1) ds.2
    else parseExpPart acc s

/-- Lexeme of a JSON number at the head of `s`. -/
def parseNumberLex (s : Str) : Option (Str × Str) :=
  let negRest : Str × Str :=
    match s with
    | c :: cs => if c = '-' then (['-'], cs) else ([], s)
    | [] => ([], s)
  match negRest.2 with
  | [] => none
  | c :: cs =>
    if c = '0' then parseFracPart (negRest.1 ++ ['0']) cs
    else if c.isDigit then
      let ds := parseDigits (c :: cs)
      parseFracPart (negRest.1 ++ ds.1) ds.2
    else none

mutual

def parseJsnVal : Nat → Str → Option (Jsn × Str)
  | 0, _ => none
  | fuel + 1, s0 =>
    let s := skipJsonWs s0
    match s with
    | [] => none
    | c :: cs =>
      if c = '"' then (parseStringBody (cs.length + 1) cs).map (fun p => (Jsn.str p.1, p.2))
      else if c = '{' then parseJsnObjBody fuel cs
      else if c = '[' then parseJsnArrBody fuel cs
      else if strStarts "null".toList s then some (Jsn.null, s.drop 4)
      else if strStarts "true".toList s then some (Jsn.bool true, s.drop 4)
      else if strStarts "false".toList s then some (Jsn.bool false, s.drop 5)
      else (parseNumberLex s).map (fun p => (Jsn.num p.1, p.2))

def parseJsnObjBody : Nat → Str → Option (Jsn × Str)
  | 0, _ => none
  | fuel + 1, s0 =>
    let s := skipJsonWs s0
    match s with
    | [] => none
    | c :: cs =>
      if c = '}' then some (Jsn.obj [], cs)
      else parseJsnObjFields fuel (c :: cs) []

def parseJsnObjFields : Nat → Str → List (Str × Jsn) → Option (Jsn × Str)
  | 0, _, _ => none
  | fuel + 1, s0, acc =>
    let s := skipJsonWs s0
    match s with
    | [] => none
    | c :: cs =>
      if c = '"' then
        match parseStringBody (cs.length + 1) cs with
        | none => none
        | some (key, r1) =>
          match skipJsonWs r1 with
          | ':' :: r3 =>
            match parseJsnVal fuel r3 with
            | none => none
            | some (v, r4) =>
              match skipJsonWs r4 with
              | ',' :: r6 => parseJsnObjFields fuel r6 (acc ++ [(key, v)])
              | '}' :: r6 => some (Jsn.obj (acc ++ [(key, v)]), r6)
              | _ => none
          | _ => none
      else none

def parseJsnArrBody : Nat → Str → Option (Jsn × Str)
  | 0, _ => none
  | fuel + 1, s0 =>
    let s := skipJsonWs s0
    match s with
    | [] => none
    | c :: cs =>
      if c = ']' then some (Jsn.arr [], cs)
      else parseJsnArrElems fuel (c :: cs) []

def parseJsnArrElems : Nat → Str → List Jsn → Option (Jsn × Str)
  | 0, _, _ => none
  | fuel + 1, s, acc =>
    match parseJsnVal fuel s with
    | none => none
    | some (v, r1) =>
      match skipJsonWs r1 with
      | ',' :: r3 => parseJsnArrElems fuel r3 (acc ++ [v])
      | ']' :: r3 => some (Jsn.arr (acc ++ [v]), r3)
      | _ => none

end

/-- Model of `JSON.parse`: a full-input parse of a single JSON value. -/
def jsonParse (s : Str) : Option Jsn :=
  match parseJsnVal (s.length + 1) s with
  | some (v, rest) => if (skipJsonWs rest).isEmpty then some v else none
  | none => none

/-- Model of `tryParseJson` from streaming-compatible.ts (`none` models the
`undefined` result for a missing/empty payload). -/
def tryParseJson (raw : Str) : Option Jsn :=
  if raw.isEmpty then none
  else
    let trimmed := trimWs raw
    if trimmed.isEmpty then some (Jsn.str [])
    else
      match jsonParse trimmed with
      | some v => some v
      | none => some (Jsn.str trimmed)

/-- Model of `tryParseJson` from run-compatible-stream (raw is always a string;
parse failure falls back to the trimmed raw text). -/
def tryParseJsonStr (raw : Str) : Jsn :=
  let trimmed := trimWs raw
  if trimmed.isEmpty then Jsn.str []
  else
    match jsonParse trimmed with
    | some v => v
    | none => Jsn.str trimmed

/-! ### Conversation state and tool registry -/

inductive Role where
  | system | user | assistant | tool
deriving DecidableEq

inductive ToolOutput where
  | text (s : Str)
  | json (j : Jsn)
  | errorText (s : Str)

structure ToolResultEntry where
  toolCallId : Str
  toolName : Str
  output : ToolOutput

inductive MsgContent where
  | text (s : Str)
  | toolResults (entries : List ToolResultEntry)

structure ConvMessage where
  role : Role
  content : MsgContent

/-- A registry entry: `execute` is absent for non-executable tools; a call
either returns an output value or throws (the `Except.error` carries the
stringified exception). -/
structure ToolDef where
  description : Str
  execute : Option (Option Jsn → List ConvMessage → Except Str (Option Jsn))

def lookupTool (registry : List (Str × ToolDef)) (name : Str) : Option ToolDef :=
  match registry.find? (fun p => p.1 = name) with
  | some p => some p.2
  | none => none

/-- Model of `toToolResultOutput`: strings become text results, `undefined` and
`null` become empty text, everything else is passed as JSON.  (`undefined` is
modelled by `none`; every `Jsn` value serializes, so the non-serializable
branch is unreachable in the model.) -/
def toToolResultOutput : Option Jsn → ToolOutput
  | some (Jsn.str s) => .text s
  | none => .text []
  | some Jsn.null => .text []
  | some j => .json j

/-! ### The bounded dispatch loop `runCompatibleStream` -/

structure ParsedToolCall where
  callId : Str
  toolName : Str
  rawArguments : Str
  arguments : Jsn

/-- One scripted model response: the plain text (tool markup already
stripped), the parsed tool-call directives, and the finish reason. -/
structure StepResp where
  text : Str
  calls : List ParsedToolCall
  finish : Str

/-- The `c.arguments === "" ? undefined : c.arguments` input coercion. -/
def callInputOf (c : ParsedToolCall) : Option Jsn :=
  match c.arguments with
  | Jsn.str [] => none
  | a => some a

/-- The body of the `calls.map` in `runCompatibleStream`: look the tool up,
synthesize an error result when it is absent or non-executable, catch
exceptions from `execute` and turn them into error results. -/
def execOneCall (registry : List (Str × ToolDef)) (msgs : List ConvMessage)
    (c : ParsedToolCall) : ToolResultEntry :=
  match lookupTool registry c.toolName with
  | none => ⟨c.callId, c.toolName, .errorText ("Tool not available: ".toList ++ c.toolName)⟩
  | some tool =>
    match tool.execute with
    | none => ⟨c.callId, c.toolName, .errorText ("Tool not available: ".toList ++ c.toolName)⟩
    | some exec =>
      match exec (callInputOf c) msgs with
      | .ok out => ⟨c.callId, c.toolName, toToolResultOutput out⟩
      | .error err =>
          ⟨c.callId, c.toolName, .errorText ("Tool execution failed: ".toList ++ err)⟩

def executeCalls (registry : List (Str × ToolDef)) (msgs : List ConvMessage)
    (calls : List ParsedToolCall) : List ToolResultEntry :=
  calls.map (execOneCall registry msgs)

structure CompatState where
  workingMessages : List ConvMessage
  overallText : Str
  allCalls : List ParsedToolCall
  finalFinish : Option Str
  invocations : Nat

structure CompatibleResult where
  text : Str
  toolCalls : List ParsedToolCall
  finishReason : Str

/-- The `for (let step = 0; step < maxToolLoops; step++)` loop of
`runCompatibleStream`; `oracle step workingMessages` models one `streamOnce`
(model invocation plus tag parsing), `origMessages` is the caller's `messages`
list used for the `msgWithoutSystem` filter. -/
def runCompatLoop (oracle : Nat → List ConvMessage → StepResp)
    (registry : List (Str × ToolDef)) (origMessages : List ConvMessage) :
    Nat → Nat → CompatState → CompatState
  | 0, _, st => st
  | fuel + 1, step, st =>
    let msgWithoutSystem := origMessages.filter (fun m => !(m.role = Role.system))
    let resp := oracle step st.workingMessages
    let st1 : CompatState :=
      { st with
          overallText := st.overallText ++ resp.text,
          allCalls := st.allCalls ++ resp.calls,
          finalFinish := some resp.finish,
          invocations := st.invocations + 1 }
    if resp.calls.isEmpty then st1
    else
      let st2 : CompatState :=
        if (trimWs resp.text).isEmpty then st1
        else { st1 with workingMessages :=
                 st1.workingMessages ++ [⟨Role.assistant, MsgContent.text resp.text⟩] }
      let results := executeCalls registry msgWithoutSystem resp.calls
      let st3 : CompatState :=
        { st2 with workingMessages :=
            st2.workingMessages ++ [⟨Role.tool, MsgContent.toolResults results⟩] }
      runCompatLoop oracle registry origMessages fuel (step + 1) st3

/-- Model of `runCompatibleStream`: the empty-messages guard, the bounded
loop, and the result assembly; the second component counts model invocations. -/
def runCompatibleStream (oracle : Nat → List ConvMessage → StepResp)
    (registry : List (Str × ToolDef)) (maxToolLoops : Nat)
    (messages : List ConvMessage) : Except Str CompatibleResult × Nat :=
  if messages.isEmpty then
    (.error "runCompatibleStream requires at least one message".toList, 0)
  else
    let st := runCompatLoop oracle registry messages maxToolLoops 0
      ⟨messages, [], [], none, 0⟩
    match st.finalFinish with
    | none => (.error "streaming did not produce a finish reason".toList, st.invocations)
    | some f => (.ok ⟨st.overallText, st.allCalls, f⟩, st.invocations)

/-! ### The unbounded dispatch loop of `streamTextWithCompatibleTools` -/

/-- Per-cycle scanner fields are reset before each `streamText` call; the
cross-cycle fields (`emitted`, `lastEmittedChar`, `pendingBoundarySeparator`)
are kept. -/
def resetScan (st : ScanState) : ScanState :=
  { st with buffer := [], inToolCall := false, toolMatch := none, carryOver := [] }

structure StwctState where
  scan : ScanState
  messages : List ConvMessage
  invocations : Nat
  finished : Bool

def stwctInit (messages : List ConvMessage) : StwctState :=
  ⟨scanInit, messages, 0, false⟩

/-- One full `while (true)` body of the `textStreamOut` generator: scan the
scripted fragment stream, then either finish (no tool match / unknown tool) or
execute the tool, append the result message and continue.  `streams i` is the
text-fragment stream of the `i`-th model invocation; `respMsgs i` its response
messages.  The fuel argument bounds how many iterations the model is unrolled
for — the source loop itself has no bound. -/
def stwctLoop (streams : Nat → List Str) (respMsgs : Nat → List ConvMessage)
    (registry : List (Str × ToolDef)) : Nat → StwctState → StwctState
  | 0, st => st
  | fuel + 1, st =>
    if st.finished then st
    else
      let sc1 := scanFinish (scanRun (resetScan st.scan) (streams st.invocations))
      let msgs1 := st.messages ++ respMsgs st.invocations
      let sc2 :=
        if sc1.toolMatch.isSome then { sc1 with pendingBoundarySeparator := true } else sc1
      match sc1.toolMatch with
      | none =>
          { st with
              scan := { sc2 with emitted := sc2.emitted ++ sc2.carryOver, carryOver := [] },
              messages := msgs1,
              invocations := st.invocations + 1,
              finished := true }
      | some (name, payload) =>
          match lookupTool registry name with
          | none =>
              { st with
                  scan := { sc2 with emitted := sc2.emitted ++ sc2.carryOver, carryOver := [] },
                  messages := msgs1,
                  invocations := st.invocations + 1,
                  finished := true }
          | some tool =>
            match tool.execute with
            | none =>
                { st with
                    scan := { sc2 with emitted := sc2.emitted ++ sc2.carryOver, carryOver := [] },
                    messages := msgs1,
                    invocations := st.invocations + 1,
                    finished := true }
            | some exec =>
              let entry : ToolResultEntry :=
                match exec (tryParseJson payload) msgs1 with
                | .ok out => ⟨[], name, toToolResultOutput out⟩
                | .error err =>
                    ⟨[], name, .errorText ("Tool execution failed: ".toList ++ err)⟩
              let st1 : StwctState :=
                { st with
                    scan := { sc2 with emitted := sc2.emitted ++ sc2.carryOver, carryOver := [] },
                    messages := msgs1 ++ [⟨Role.assistant, MsgContent.toolResults [entry]⟩],
                    invocations := st.invocations + 1 }
              stwctLoop streams respMsgs registry fuel st1

/-- Model of the `streamTextWithCompatibleTools` entry point: the synchronous
empty-messages guard runs before any stream is produced. -/
def streamTextWithCompatibleTools (streams : Nat → List Str)
    (respMsgs : Nat → List ConvMessage) (registry : List (Str × ToolDef))
    (messages : List ConvMessage) (fuel : Nat) : Except Str StwctState :=
  if messages.isEmpty then
    .error "streamTextWithCompatibleTools requires at least one message".toList
  else
    .ok (stwctLoop streams respMsgs registry fuel (stwctInit messages))

/-! ### Markdown unsafe zones and safe split points (markdown-splitter.ts) -/

structure Zone where
  start : Nat
  stop : Nat
deriving DecidableEq

structure CodeFence where
  start : Nat
  stop : Nat
  contentStart : Nat
deriving DecidableEq

inductive MdNodeType where
  | strong | emphasis | delete | inlineCode | code | link | image | html | root | other
deriving DecidableEq

/-- An mdast node as delivered by the external `fromMarkdown` parser: node
type, fence language (for `code` nodes), start/end offsets, children. -/
inductive MdNode where
  | mk (type : MdNodeType) (lang : Str) (position : Option (Nat × Nat))
       (children : List MdNode)

def MdNode.type : MdNode → MdNodeType
  | .mk t _ _ _ => t

/-- Model of `isPositionSafe`: `pos` is strictly inside no zone. -/
def isPositionSafe (pos : Nat) (zones : List Zone) : Bool :=
  zones.all (fun z => !(z.start < pos && pos < z.stop))

/-- Zones contributed by one node in the plain `getUnsafeZones` (the variant
used by `findSafeSplitPoint`, without code-fence ranges): whole `code`, `link`,
`image` and `html` spans are unsafe; emphasis-like nodes contribute their two
marker ranges. -/
def nodeZones1 (t : MdNodeType) (s e : Nat) : List Zone :=
  match t with
  | .strong => [⟨s, s + 2⟩, ⟨e - 2, e⟩]
  | .emphasis => [⟨s, s + 1⟩, ⟨e - 1, e⟩]
  | .delete => [⟨s, s + 2⟩, ⟨e - 2, e⟩]
  | .inlineCode => [⟨s, s + 1⟩, ⟨e - 1, e⟩]
  | .code => [⟨s, e⟩]
  | .link => [⟨s, e⟩]
  | .image => [⟨s, e⟩]
  | .html => [⟨s, e⟩]
  | _ => []

mutual

/-- Model of the first `getUnsafeZones` (a node without a position is skipped
together with its children, like the early `return zones`). -/
def getUnsafeZones1 : MdNode → List Zone
  | .mk _ _ none _ => []
  | .mk t _ (some (s, e)) children => nodeZones1 t s e ++ getUnsafeZones1List children

def getUnsafeZones1List : List MdNode → List Zone
  | [] => []
  | n :: ns => getUnsafeZones1 n ++ getUnsafeZones1List ns

end

/-- First index `i` with `p i`, scanning `hi, hi-1, ..., lo` (none if `hi < lo`). -/
def scanDown (p : Nat → Bool) (lo : Nat) : Nat → Option Nat
  | 0 => if 0 < lo then none else if p 0 then some 0 else none
  | hi + 1 =>
    if hi + 1 < lo then none
    else if p (hi + 1) then some (hi + 1)
    else scanDown p lo hi

/-- Upward scan over the next `n` candidates starting at `i`. -/
def scanUpAux (p : Nat → Bool) : Nat → Nat → Option Nat
  | 0, _ => none
  | n + 1, i => if p i then some i else scanUpAux p n (i + 1)

/-- First index `i` with `p i`, scanning `i, i+1, ...` while `i < hi`. -/
def scanUp (p : Nat → Bool) (hi i : Nat) : Option Nat := scanUpAux p (hi - i) i

/-- Model of `findSafeSplitPoint` over the zones of the parsed source (the
parse itself is the external `fromMarkdown`); `sourceLen` is the source length. -/
def findSafeSplitPointZ (zones : List Zone) (sourceLen target maxBacktrack : Nat) : Nat :=
  let t := min target sourceLen
  if sourceLen ≤ t then sourceLen
  else
    match scanDown (fun i => isPositionSafe i zones) (t - maxBacktrack) t with
    | some i => i
    | none =>
      match scanUp (fun i => isPositionSafe i zones) (min sourceLen (t + maxBacktrack)) (t + 1) with
      | some i => i
      | none => t

/-- `findSafeSplitPoint` applied to a parse tree. -/
def findSafeSplitPoint (tree : MdNode) (sourceLen target maxBacktrack : Nat) : Nat :=
  findSafeSplitPointZ (getUnsafeZones1 tree) sourceLen target maxBacktrack

/-! ### Lexical split points (the `findLexicalSafeSplitPoint` variant) -/

/-- Zones of the second `getUnsafeZones` variant: fenced code contributes only
its fence-marker ranges, and the fence span is recorded separately. -/
def nodeZones2 (t : MdNodeType) (s e : Nat) : List Zone :=
  match t with
  | .strong => [⟨s, s + 2⟩, ⟨e - 2, e⟩]
  | .emphasis => [⟨s, s + 1⟩, ⟨e - 1, e⟩]
  | .delete => [⟨s, s + 2⟩, ⟨e - 2, e⟩]
  | .inlineCode => [⟨s, s + 1⟩, ⟨e - 1, e⟩]
  | .code => [⟨s, min e (s + 3)⟩, ⟨max s (e - 3), e⟩]
  | .link => [⟨s, e⟩]
  | .image => [⟨s, e⟩]
  | .html => [⟨s, e⟩]
  | _ => []

def nodeFences2 (t : MdNodeType) (lang : Str) (s e : Nat) : List CodeFence :=
  match t with
  | .code =>
    let langT := trimWs lang
    [⟨s, e, min e (s + (3 + langT.length) + 1)⟩]
  | _ => []

mutual

def getUnsafeZones2 : MdNode → List Zone × List CodeFence
  | .mk _ _ none _ => ([], [])
  | .mk t lang (some (s, e)) children =>
    let rest := getUnsafeZones2List children
    (nodeZones2 t s e ++ rest.1, nodeFences2 t lang s e ++ rest.2)

def getUnsafeZones2List : List MdNode → List Zone × List CodeFence
  | [] => ([], [])
  | n :: ns =>
    let a := getUnsafeZones2 n
    let b := getUnsafeZones2List ns
    (a.1 ++ b.1, a.2 ++ b.2)

end

/-- `source[i - 1] === "\n"` (false at `i = 0`, where the source reads `source[-1]`). -/
def prevIsNewline (source : Str) (i : Nat) : Bool :=
  if i = 0 then false else source.get? (i - 1) = some '\n'

/-- `/\s/u.test(source[i - 1] ?? "")` (false at `i = 0` and out of range). -/
def prevIsWs (source : Str) (i : Nat) : Bool :=
  if i = 0 then false
  else
    match source.get? (i - 1) with
    | some c => isJsWs c
    | none => false

/-- One `Intl.Segmenter` segment: start index within the segmented window,
segment length, and the `isWordLike` flag. -/
structure SegItem where
  index : Nat
  len : Nat
  isWordLike : Bool

/-- Model of `findPreferredBoundaryInWindow`; `segment` models the external
`Intl.Segmenter` applied to the window. -/
def findPreferredBoundaryInWindow (segment : Str → List SegItem) (source : Str)
    (target : Nat) (zones : List Zone) (codeFences : List CodeFence)
    (maxBacktrack newlineBacktrack : Nat) : Option Nat :=
  let safeTarget := min target source.length
  let start := safeTarget - maxBacktrack
  match codeFences.find? (fun f => f.contentStart < safeTarget && safeTarget < f.stop) with
  | some f =>
    let minPos := max (f.contentStart + 1) start
    scanDown (fun i => isPositionSafe i zones && prevIsNewline source i) minPos safeTarget
  | none =>
    let nl := scanDown
      (fun i => !(i = 0) && isPositionSafe i zones && prevIsNewline source i)
      (safeTarget - newlineBacktrack) safeTarget
    match nl with
    | some i => some i
    | none =>
      let wsB := scanDown
        (fun i => !(i = 0) && isPositionSafe i zones && prevIsWs source i)
        start safeTarget
      match wsB with
      | some i => some i
      | none =>
        let window := (source.drop start).take (safeTarget - start)
        if window.isEmpty then none
        else
          (segment window).foldl
            (fun best seg =>
              let boundary := start + seg.index + seg.len
              if boundary ≤ start || safeTarget < boundary then best
              else if !(isPositionSafe boundary zones) then best
              else if seg.isWordLike then some boundary
              else best)
            none

/-- Model of `findLexicalSafeSplitPoint`; `parse` models the external
`fromMarkdown` parser, `segment` the `Intl.Segmenter`. -/
def findLexicalSafeSplitPoint (parse : Str → MdNode) (segment : Str → List SegItem)
    (source : Str) (target0 maxBacktrack newlineBacktrack : Nat) : Nat :=
  let target := min target0 source.length
  let info := getUnsafeZones2 (parse source)
  let baseSafe :=
    match scanDown (fun i => isPositionSafe i info.1) (target - maxBacktrack) target with
    | some i => i
    | none =>
      match scanUp (fun i => isPositionSafe i info.1) (min source.length (target + maxBacktrack)) (target + 1) with
      | some i => i
      | none => target
  match findPreferredBoundaryInWindow segment source baseSafe info.1 info.2
      maxBacktrack newlineBacktrack with
  | some p => p
  | none => baseSafe

/-! ### The `remend` markdown completer.

Modelled from the spec: `remend` is the external markdown completion library
(`safeRemend` wraps it).  Per the specification it "returns text with all open
inline constructs closed using the minimal matching closer, preserving nesting
order" for bold, italic, bold+italic, strikethrough, inline code and block
math, while "fenced code blocks are explicitly not auto-closed"; the
repository's tests pin the same behaviour.  The model scans the text with a
small state machine and appends the closers of everything still open, closing
nothing for an open fence. -/

inductive RTok where
  | triBold | bold | under2 | strike | ital | under1 | math (blockNl : Bool)
deriving DecidableEq

def rtokCloser : RTok → Str
  | .triBold => "***".toList
  | .bold => "**".toList
  | .under2 => "__".toList
  | .strike => "~~".toList
  | .ital => "*".toList
  | .under1 => "_".toList
  | .math nl => if nl then '\n' :: "$$".toList else "$$".toList

def rtokSameKind : RTok → RTok → Bool
  | .math _, .math _ => true
  | a, b => a = b

structure RemendState where
  stack : List RTok
  inCode : Bool
  inFence : Bool

def remendInit : RemendState := ⟨[], false, false⟩

/-- Toggle a construct: a matching innermost opener is closed, otherwise the
construct opens. -/
def rtoggle (st : RemendState) (t : RTok) : RemendState :=
  match st.stack with
  | t' :: rest => if rtokSameKind t' t then { st with stack := rest }
                  else { st with stack := t :: st.stack }
  | [] => { st with stack := [t] }

def headIs (s : Str) (c : Char) : Bool :=
  match s with
  | d :: _ => d = c
  | [] => false

def twoTicks (s : Str) : Bool :=
  match s with
  | a :: b :: _ => a = btick && b = btick
  | _ => false

def twoOf (s : Str) (c : Char) : Bool :=
  match s with
  | a :: b :: _ => a = c && b = c
  | _ => false

def remendScanF : Nat → RemendState → Str → RemendState
  | 0, st, _ => st
  | _ + 1, st, [] => st
  | fuel + 1, st, c :: cs =>
    if st.inFence then
      if c = btick && twoTicks cs then remendScanF fuel { st with inFence := false } (cs.drop 2)
      else remendScanF fuel st cs
    else if st.inCode then
      if c = btick then remendScanF fuel { st with inCode := false } cs
      else remendScanF fuel st cs
    else if c = btick && twoTicks cs then
      remendScanF fuel { st with inFence := true } (cs.drop 2)
    else if c = btick then
      remendScanF fuel { st with inCode := true } cs
    else if c = '*' && twoOf cs '*' then
      remendScanF fuel (rtoggle st .triBold) (cs.drop 2)
    else if c = '*' && headIs cs '*' then
      remendScanF fuel (rtoggle st .bold) (cs.drop 1)
    else if c = '*' then
      remendScanF fuel (rtoggle st .ital) cs
    else if c = '_' && headIs cs '_' then
      remendScanF fuel (rtoggle st .under2) (cs.drop 1)
    else if c = '_' then
      remendScanF fuel (rtoggle st .under1) cs
    else if c = '~' && headIs cs '~' then
      remendScanF fuel (rtoggle st .strike) (cs.drop 1)
    else if c = '$' && headIs cs '$' then
      remendScanF fuel (rtoggle st (.math (headIs (cs.drop 1) '\n'))) (cs.drop 1)
    else
      remendScanF fuel st cs

/-- Model of one full scan of the text. -/
def remendScan (st : RemendState) (s : Str) : RemendState := remendScanF (s.length + 1) st s

/-- Closers appended by the modelled `remend` (innermost first; an open inline
code span is innermost by construction; an open fence closes nothing). -/
def remendCloserOf (st : RemendState) : Str :=
  (if st.inCode then [btick] else []) ++ (st.stack.map rtokCloser).flatten

/-- The modelled `remend` itself: the input followed by the missing closers. -/
def remendModel (s : Str) : Str := s ++ remendCloserOf (remendScan remendInit s)

/-! ### token-complete.ts: code-block escaping, completion, reopening -/

def fence3 : Str := "```".toList

structure CodeBlock where
  isFence : Bool
  content : Str
  lang : Str
  closed : Bool

def phFence (i : Nat) : Str := nulChar :: "FENCE".toList ++ (Nat.repr i).toList ++ [nulChar]

def phFenceContent (i : Nat) : Str :=
  nulChar :: "FENCECONTENT".toList ++ (Nat.repr i).toList ++ [nulChar]

def phInlineCode (i : Nat) : Str :=
  nulChar :: "INLINE".toList ++ (Nat.repr i).toList ++ [nulChar]

def phInlineContent (i : Nat) : Str :=
  nulChar :: "INLINECONTENT".toList ++ (Nat.repr i).toList ++ [nulChar]

def isWordChar (c : Char) : Bool := c.isAlpha || c.isDigit || c = '_'

/-- Global-replace pass for ``/```(\w*)(\n?)([\s\S]*?)(```|$)/g`` of
`escapeCodeBlocks`: closed fences are fully replaced by a placeholder, the
opener of an unclosed fence stays visible and only its content is hidden.
The fuel is one more than the text length (each match consumes at least three
characters, so it never runs out). -/
def fencePass : Nat → Str → Nat → Str × List CodeBlock
  | 0, s, _ => (s, [])
  | fuel + 1, s, idx =>
    match findSub fence3 s with
    | none => (s, [])
    | some i =>
      let pre := s.take i
      let rest := s.drop (i + 3)
      let lang := rest.takeWhile isWordChar
      let r2 := rest.drop lang.length
      let nlr3 : Str × Str :=
        match r2 with
        | c :: cs => if c = '\n' then ([c], cs) else ([], r2)
        | [] => ([], [])
      let nl := nlr3.1
      let r3 := nlr3.2
      match findSub fence3 r3 with
      | some k =>
        let content := r3.take k
        let r4 := r3.drop (k + 3)
        let tailBlocks := fencePass fuel r4 (idx + 1)
        (pre ++ phFence idx ++ tailBlocks.1, ⟨true, content, lang, true⟩ :: tailBlocks.2)
      | none =>
        (pre ++ fence3 ++ lang ++ nl ++ phFenceContent idx, [⟨true, r3, lang, false⟩])

/-- Global-replace pass for ``/`([^`\x00]+)(`|$)/g``: closed inline code is
fully replaced, an unclosed span keeps its opening backtick. -/
def inlinePass : Nat → Str → Nat → Str × List CodeBlock
  | 0, s, _ => (s, [])
  | fuel + 1, s, idx =>
    match s with
    | [] => ([], [])
    | c :: cs =>
      if c = btick then
        let content := cs.takeWhile (fun x => !(x = btick) && !(x = nulChar))
        if content.isEmpty then
          let t := inlinePass fuel cs idx
          (c :: t.1, t.2)
        else
          let r := cs.drop content.length
          match r with
          | r0 :: rrest =>
            if r0 = btick then
              let t := inlinePass fuel rrest (idx + 1)
              (phInlineCode idx ++ t.1, ⟨false, content, [], true⟩ :: t.2)
            else
              let t := inlinePass fuel r idx
              (c :: content ++ t.1, t.2)
          | [] => (btick :: phInlineContent idx, [⟨false, content, [], false⟩])
      else
        let t := inlinePass fuel cs idx
        (c :: t.1, t.2)

/-- Model of `escapeCodeBlocks`: the fence pass, then the inline pass over its
result, with block indices continuing across the passes. -/
def escapeCodeBlocks (text : Str) : Str × List CodeBlock :=
  let f := fencePass (text.length + 1) text 0
  let i := inlinePass (f.1.length + 1) f.1 f.2.length
  (i.1, f.2 ++ i.2)

/-- Restore one block: the placeholder's first occurrence is replaced by the
reconstructed code (mirroring `String.prototype.replace`). -/
def restoreOne (acc : Str) (ib : Nat × CodeBlock) : Str :=
  let i := ib.1
  let b := ib.2
  if b.isFence then
    if b.closed then
      let langPart := if b.lang.isEmpty then ([] : Str) else b.lang ++ ['\n']
      replaceFirst acc (phFence i) (fence3 ++ langPart ++ b.content ++ fence3)
    else replaceFirst acc (phFenceContent i) b.content
  else
    if b.closed then replaceFirst acc (phInlineCode i) (btick :: b.content ++ [btick])
    else replaceFirst acc (phInlineContent i) b.content

def restoreCodeBlocks (text : Str) (blocks : List CodeBlock) : Str :=
  blocks.enum.foldl restoreOne text

/-- Model of `safeRemend`: escape code blocks, run the (modelled) `remend`,
restore the code blocks. -/
def safeRemend (text : Str) : Str :=
  let e := escapeCodeBlocks text
  restoreCodeBlocks (remendModel e.1) e.2

/-- Model of `completeMarkdown`. -/
def completeMarkdown (input : Str) : Str := safeRemend input

/-- Escape and restore without any completion: the reconstruction baseline
that `safeRemend` extends with appended closers. -/
def escapeRestoreBase (input : Str) : Str :=
  let e := escapeCodeBlocks input
  restoreCodeBlocks e.1 e.2

/-- The token chain recognized by `detectClosedTags`, in source order. -/
def detectSeq : Nat → Str → List Str
  | 0, _ => []
  | _ + 1, [] => []
  | fuel + 1, s@(_ :: cs) =>
    if strStarts "***".toList s then "***".toList :: detectSeq fuel (s.drop 3)
    else if strStarts "**".toList s then "**".toList :: detectSeq fuel (s.drop 2)
    else if strStarts "__".toList s then "__".toList :: detectSeq fuel (s.drop 2)
    else if strStarts "~~".toList s then "~~".toList :: detectSeq fuel (s.drop 2)
    else if strStarts "$$".toList s then "$$".toList :: detectSeq fuel (s.drop 2)
    else if strStarts fence3 s then fence3 :: detectSeq fuel (s.drop 3)
    else if strStarts "`".toList s then "`".toList :: detectSeq fuel (s.drop 1)
    else if strStarts "*".toList s then "*".toList :: detectSeq fuel (s.drop 1)
    else if strStarts "_".toList s then "_".toList :: detectSeq fuel (s.drop 1)
    else if strStarts ('\n' :: "$$".toList) s then "$$".toList :: detectSeq fuel (s.drop 3)
    else detectSeq fuel cs

/-- Model of `detectClosedTags`: parse the suffix that the completer added;
`unshift` builds the result in reverse detection order. -/
def detectClosedTags (original completed : Str) : List Str :=
  let suffix := completed.drop original.length
  (detectSeq (suffix.length + 1) suffix).reverse

/-- Suffix of `text` after its last ```` ``` ```` occurrence. -/
def lastFenceSuffix : Nat → Str → Option Str
  | 0, _ => none
  | fuel + 1, s =>
    match findSub fence3 s with
    | none => none
    | some i =>
      let rest := s.drop (i + 3)
      match lastFenceSuffix fuel rest with
      | some r => some r
      | none => some rest

/-- Model of `findCodeBlockLanguage` (the regex ``/```(\w*)\n?[^`]*$/``): the
language after the last fence opener, provided no backtick follows it. -/
def findCodeBlockLanguage (text : Str) : Str :=
  match lastFenceSuffix (text.length + 1) text with
  | none => []
  | some r =>
    let lang := r.takeWhile isWordChar
    let r2 := r.drop lang.length
    let r3 : Str :=
      match r2 with
      | c :: cs => if c = '\n' then cs else r2
      | [] => []
    if r3.any (fun c => c = btick) then [] else lang

/-- Model of `buildOpeningPrefix`: map each closed tag to the text that reopens
it in the continuation chunk. -/
def buildOpeningTags (closedTags : List Str) (originalText : Str) : Str :=
  (closedTags.map (fun tag =>
    if tag = fence3 then fence3 ++ findCodeBlockLanguage originalText ++ ['\n']
    else if tag = "$$".toList then
      (if hasSub ("$$".toList ++ ['\n']) originalText then "$$".toList ++ ['\n']
       else "$$".toList)
    else tag)).flatten

/-- Model of `tokenCompleteAt`: force a split at `splitAt`, close what was
open in the first part and prepend the reopening tags to the remainder. -/
def tokenCompleteAt (input : Str) (splitAt : Nat) : Str × Str :=
  let clamped := min splitAt input.length
  let firstPart := input.take clamped
  let remainingPart := input.drop clamped
  let completedFirst := safeRemend firstPart
  let closedTags := detectClosedTags firstPart completedFirst
  let opening := buildOpeningTags closedTags firstPart
  (completedFirst, if remainingPart.isEmpty then [] else opening ++ remainingPart)

/-! ### markdown-chunker.ts: `chunkRaw` -/

/-- Model of `/^```/m.test(s)`: a line of `s` starts with a code fence. -/
def hasFenceLine (s : Str) : Bool := strStarts fence3 s || hasSub ('\n' :: fence3) s

structure SmartVals where
  completed : Str
  overflow : Str
  nextRemaining : Str

/-- The per-attempt body of `chunkRaw`'s overflow loop. -/
def smartAttemptVals (remaining : Str) (pos : Nat) : SmartVals :=
  let co := tokenCompleteAt remaining pos
  let isFenced := hasFenceLine co.1
  ⟨co.1, co.2, if isFenced then co.2 else stripLeadingWs co.2⟩

/-- The `for (let attempt = 0; attempt < 10; attempt++)` retry loop.  It
returns the final `attemptSplitPos` together with the values computed in the
last executed iteration (when the loop exhausts its attempts the position has
already been advanced past the one those values were computed at, exactly as
in the source). -/
def smartAttemptLoop (remaining : Str) (maxLen : Nat) : Nat → Nat → Nat × SmartVals
  | 0, pos => (pos, smartAttemptVals remaining pos)
  | aLeft + 1, pos =>
    let v := smartAttemptVals remaining pos
    if v.nextRemaining.length < remaining.length then (pos, v)
    else if maxLen ≤ pos then (pos, v)
    else
      let pos' := min maxLen (pos + 1)
      match aLeft with
      | 0 => (pos', v)
      | _ + 1 => smartAttemptLoop remaining maxLen aLeft pos'

/-- One iteration of `chunkRaw`'s `while` loop in the overflow case
(`maxLen < remaining.length`): pick the split position, run the retry loop,
and produce the raw chunk, the trimmed display chunk and the next remainder. -/
def smartStep (parse : Str → MdNode) (segment : Str → List SegItem)
    (remaining : Str) (maxLen : Nat) : Str × Str × Str :=
  let completedWindow := (tokenCompleteAt remaining maxLen).1
  let sp0 := findLexicalSafeSplitPoint parse segment completedWindow maxLen 100 100
  let splitPos := max 1 (min sp0 maxLen)
  let pv := smartAttemptLoop remaining maxLen 10 splitPos
  let isFenced := hasFenceLine pv.2.completed
  let display := if isFenced then pv.2.completed else trimTrailingWs pv.2.completed
  (remaining.take pv.1, display, pv.2.nextRemaining)

/-- The smart-splitting `while (remaining.length > 0)` loop, fuelled; `none`
models a run that needs more iterations than the fuel allows. -/
def smartLoop (parse : Str → MdNode) (segment : Str → List SegItem) (maxLen : Nat) :
    Nat → Str → Option (List Str × List Str)
  | _, [] => some ([], [])
  | 0, _ :: _ => none
  | fuel + 1, remaining@(_ :: _) =>
    if remaining.length ≤ maxLen then
      some ([remaining], [completeMarkdown remaining])
    else
      let sdn := smartStep parse segment remaining maxLen
      match smartLoop parse segment maxLen fuel sdn.2.2 with
      | some t => some (sdn.1 :: t.1, sdn.2.1 :: t.2)
      | none => none

/-- The fixed-length slicing of the non-smart mode
(`for (let i = 0; i < content.length; i += maxChunkLength)`). -/
def fixedSlicesF : Nat → Str → Nat → List Str
  | 0, _, _ => []
  | fuel + 1, content, maxLen =>
    if maxLen = 0 then []
    else if content.isEmpty then []
    else content.take maxLen :: fixedSlicesF fuel (content.drop maxLen) maxLen

def fixedSlices (content : Str) (maxLen : Nat) : List Str :=
  fixedSlicesF (content.length + 1) content maxLen

/-- Model of `chunkRaw`, returning `(rawChunks, displayChunks)`; `parse` and
`segment` stand for the external markdown parser and `Intl.Segmenter`, and the
fuel bounds the smart-splitting loop. -/
def chunkRawF (parse : Str → MdNode) (segment : Str → List SegItem) (fuel : Nat)
    (content : Str) (maxLen : Nat) (useSmartSplitting : Bool) :
    Option (List Str × List Str) :=
  if content.isEmpty then some ([], [])
  else if maxLen = 0 then some ([content], [completeMarkdown content])
  else if !useSmartSplitting then
    some (fixedSlices content maxLen, fixedSlices content maxLen)
  else smartLoop parse segment maxLen fuel content

/-- Modelled from the spec: the external `fromMarkdown` parser applied to text
that contains no markdown construct markers yields an AST with no emphasis,
code, link, image or html nodes, hence no unsafe zones and no code fences.
Used to instantiate the parse parameter at such plain inputs. -/
def plainParse (s : Str) : MdNode := .mk .root [] (some (0, s.length)) []

/-- A trivial `Intl.Segmenter` model producing no word segments (the
whitespace-preference branch fires before segmentation in all uses below). -/
def noSeg (_ : Str) : List SegItem := []

/-! ### Concrete instances used by counterexamples and witnesses -/

/-- A scripted provider whose every response is exactly the fetch tool tag. -/
def alwaysTagStreams (_ : Nat) : List Str := [fetchToolTag]

def noRespMsgs (_ : Nat) : List ConvMessage := []

/-- A registry containing an executable `fetch` tool. -/
def fetchRegistry : List (Str × ToolDef) :=
  [("fetch".toList, ⟨[], some (fun _ _ => .ok (some (Jsn.str "ok".toList)))⟩)]

def oneUserMessage : List ConvMessage := [⟨Role.user, MsgContent.text "hi".toList⟩]

/-- An oracle whose every response carries one parsed tool call. -/
def constCallOracle (_ : Nat) (_ : List ConvMessage) : StepResp :=
  ⟨"t".toList, [⟨"id1".toList, "fetch".toList, [], Jsn.str "x".toList⟩],
   "tool-calls".toList⟩

def toolNotAvailableMsg (name : Str) : Str := "Tool not available: ".toList ++ name

def toolFailedMsg (m : Str) : Str := "Tool execution failed: ".toList ++ m

def missingCall : ParsedToolCall := ⟨"id1".toList, "nope".toList, [], Jsn.str "x".toList⟩

/-- A registry whose only tool always throws. -/
def throwingRegistry : List (Str × ToolDef) :=
  [("boom".toList, ⟨[], some (fun _ _ => .error "kaput".toList)⟩)]

def boomCall : ParsedToolCall := ⟨"id2".toList, "boom".toList, [], Jsn.str "y".toList⟩

/-- A parse tree of a single 300-character link paragraph: the whole span is
one unsafe zone. -/
def linkTree300 : MdNode := .mk .root [] (some (0, 300)) [.mk .link [] (some (0, 300)) []]

/-- A parse tree with one bold span at offsets 4..9 of a 12-character source. -/
def strongTree12 : MdNode := .mk .root [] (some (0, 12)) [.mk .strong [] (some (4, 9)) []]

/-- Scanner state while a prefix `p` of the tag is being buffered (`p = []`
covers the initial state). -/
def midState (p : Str) : ScanState := ⟨p, !p.isEmpty, none, [], [], none, false⟩

/-- Scanner state right after buffering with buffer `q` (before the end-check). -/
def bufState (q : Str) : ScanState := ⟨q, true, none, [], [], none, false⟩

/-- Scanner state after the fetch tag has been matched. -/
def doneState : ScanState :=
  ⟨[], false, some ("fetch".toList, fetchPayloadLit), [], [], none, false⟩

/-- The scanner state reached after consuming the prefix `p` of the tag. -/
def stateFor (p : Str) : ScanState :=
  if p = fetchToolTag then doneState else midState p

/-- Well-formedness maintained by the scanner: outside a tool call the buffer
is empty, and no boundary separator is pending (true within a single cycle). -/
def scanWf (st : ScanState) : Prop :=
  (st.inToolCall = false → st.buffer = []) ∧ st.pendingBoundarySeparator = false

/-- An escape pass reported an unterminated fenced code block. -/
def hasUnclosedFence (input : Str) : Bool :=
  (escapeCodeBlocks input).2.any (fun b => b.isFence && !b.closed)

/-! ## Theorems -/

/-! ### Dispatch-loop lemmas -/

theorem runCompatLoop_invocations_le (oracle : Nat → List ConvMessage → StepResp)
    (registry : List (Str × ToolDef)) (orig : List ConvMessage) :
    ∀ fuel step st, (runCompatLoop oracle registry orig fuel step st).invocations ≤
      st.invocations + fuel := by
  intro fuel
  induction fuel with
  | zero => intro step st; simp [runCompatLoop]
  | succ n ih =>
    intro step st
    simp only [runCompatLoop]
    split
    · simp
    · refine le_trans (ih _ _) ?_
      split <;> simp <;> omega

theorem runCompatLoop_invocations_full (oracle : Nat → List ConvMessage → StepResp)
    (registry : List (Str × ToolDef)) (orig : List ConvMessage)
    (hcalls : ∀ i ms, (oracle i ms).calls ≠ []) :
    ∀ fuel step st, (runCompatLoop oracle registry orig fuel step st).invocations =
      st.invocations + fuel := by
  intro fuel
  induction fuel with
  | zero => intro step st; simp [runCompatLoop]
  | succ n ih =>
    intro step st
    simp only [runCompatLoop]
    split
    · exact absurd (List.isEmpty_iff.mp (by assumption)) (hcalls _ _)
    · rw [ih]
      split <;> simp <;> omega

theorem runCompatLoop_finish_isSome (oracle : Nat → List ConvMessage → StepResp)
    (registry : List (Str × ToolDef)) (orig : List ConvMessage) :
    ∀ fuel step st, (1 ≤ fuel ∨ st.finalFinish.isSome) →
      (runCompatLoop oracle registry orig fuel step st).finalFinish.isSome := by
  intro fuel
  induction fuel with
  | zero =>
    intro step st h
    simp only [runCompatLoop]
    rcases h with h | h
    · omega
    · exact h
  | succ n ih =>
    intro step st _
    simp only [runCompatLoop]
    split
    · simp
    · apply ih
      right
      split <;> simp

/-- Shared completion lemma: with a nonempty conversation and a positive loop
bound, `runCompatibleStream` returns a result rather than an error. -/
theorem runCompat_ok (oracle : Nat → List ConvMessage → StepResp)
    (registry : List (Str × ToolDef)) (maxToolLoops : Nat)
    (messages : List ConvMessage) (hm : messages ≠ []) (hx : 1 ≤ maxToolLoops) :
    ∃ r, (runCompatibleStream oracle registry maxToolLoops messages).1 = Except.ok r := by
  simp only [runCompatibleStream]
  rw [if_neg (by simpa [List.isEmpty_iff] using hm)]
  have h := runCompatLoop_finish_isSome oracle registry messages maxToolLoops 0
    ⟨messages, [], [], none, 0⟩ (Or.inl hx)
  rcases Option.isSome_iff_exists.mp h with ⟨f, hf⟩
  rw [hf]
  exact ⟨_, rfl⟩

/-! ### Claims C5, C6, C7, C10 -/

/-- Claim C5, counterexample: the live dispatch loop of
`streamTextWithCompatibleTools` has no iteration cap.  With a provider whose
every response is a tool call of an executable tool, eleven unrolled
iterations perform eleven model invocations and the loop has still not ended —
contradicting "at most a configured maximum number of model-invocation
iterations (default on the order of 10); once the bound is reached the turn
ends". -/
theorem C5_counterexample :
    (stwctLoop alwaysTagStreams noRespMsgs fetchRegistry 11
        (stwctInit oneUserMessage)).invocations = 11 ∧
    (stwctLoop alwaysTagStreams noRespMsgs fetchRegistry 11
        (stwctInit oneUserMessage)).finished = false :=
  ⟨rfl, rfl⟩

/-- Claim C5 (amended): `runCompatibleStream` performs at most `maxToolLoops`
model invocations, and when every response contains a tool call it performs
exactly `maxToolLoops` invocations and still returns (the
`streamTextWithCompatibleTools` variant, by contrast, is uncapped). -/
theorem C5_bounded_loop (oracle : Nat → List ConvMessage → StepResp)
    (registry : List (Str × ToolDef)) (maxToolLoops : Nat)
    (messages : List ConvMessage) :
    (runCompatibleStream oracle registry maxToolLoops messages).2 ≤ maxToolLoops ∧
    ((∀ i ms, (oracle i ms).calls ≠ []) → messages ≠ [] →
      (runCompatibleStream oracle registry maxToolLoops messages).2 = maxToolLoops) := by
  constructor
  · simp only [runCompatibleStream]
    split
    · simp
    · have h := runCompatLoop_invocations_le oracle registry messages maxToolLoops 0
        ⟨messages, [], [], none, 0⟩
      split <;> simpa using h
  · intro hcalls hm
    simp only [runCompatibleStream]
    rw [if_neg (by simpa [List.isEmpty_iff] using hm)]
    have h := runCompatLoop_invocations_full oracle registry messages hcalls maxToolLoops 0
      ⟨messages, [], [], none, 0⟩
    split <;> simpa using h

/-- Claim C5, witness of the amended theorem at a concrete oracle. -/
theorem C5_witness :
    (runCompatibleStream constCallOracle [] 3 oneUserMessage).2 ≤ 3 ∧
    (runCompatibleStream constCallOracle [] 3 oneUserMessage).2 = 3 :=
  ⟨(C5_bounded_loop constCallOracle [] 3 oneUserMessage).1,
   (C5_bounded_loop constCallOracle [] 3 oneUserMessage).2
     (fun _ _ => by simp [constCallOracle]) (by simp [oneUserMessage])⟩

/-- Counterexample to C6: in the live `streamTextWithCompatibleTools` loop a
detected call to a tool that is absent from the registry synthesizes no result
at all — fed a response that is exactly the fetch tool-call tag with an empty
registry, the loop ends the turn (`break`) after a single model invocation with
the conversation unchanged, appending no `Tool not available` entry, instead of
continuing as the claim says. -/
theorem C6_counterexample :
    (stwctLoop alwaysTagStreams noRespMsgs [] 5 (stwctInit oneUserMessage)).finished = true ∧
    (stwctLoop alwaysTagStreams noRespMsgs [] 5 (stwctInit oneUserMessage)).invocations = 1 ∧
    (stwctLoop alwaysTagStreams noRespMsgs [] 5 (stwctInit oneUserMessage)).messages =
      oneUserMessage :=
  ⟨rfl, rfl, rfl⟩

/-- Claim C6 (amended): in `runCompatibleStream` a detected call whose tool is
absent from the registry, or whose entry has no executable `execute`, is turned
into a `Tool not available: NAME` error result; the result is part of the tool
message the loop appends, and the dispatch run still completes normally.  The
live `streamTextWithCompatibleTools` loop, by contrast, synthesizes nothing on
an unknown or non-executable tool and ends the turn (see the counterexample). -/
theorem C6_unknown_tool (registry : List (Str × ToolDef)) (msgs : List ConvMessage)
    (c : ParsedToolCall)
    (habs : lookupTool registry c.toolName = none ∨
      ∃ t, lookupTool registry c.toolName = some t ∧ t.execute = none) :
    execOneCall registry msgs c =
        ⟨c.callId, c.toolName, .errorText (toolNotAvailableMsg c.toolName)⟩ ∧
    (∀ calls, c ∈ calls →
      (⟨c.callId, c.toolName, .errorText (toolNotAvailableMsg c.toolName)⟩ : ToolResultEntry)
        ∈ executeCalls registry msgs calls) ∧
    (∀ oracle maxToolLoops messages, messages ≠ ([] : List ConvMessage) →
      1 ≤ maxToolLoops →
      ∃ r, (runCompatibleStream oracle registry maxToolLoops messages).1 = Except.ok r) := by
  have hone : execOneCall registry msgs c =
      ⟨c.callId, c.toolName, .errorText (toolNotAvailableMsg c.toolName)⟩ := by
    rcases habs with h | ⟨t, ht, hex⟩
    · simp [execOneCall, h, toolNotAvailableMsg]
    · simp [execOneCall, ht, hex, toolNotAvailableMsg]
  refine ⟨hone, ?_, ?_⟩
  · intro calls hc
    have hmem : execOneCall registry msgs c ∈ executeCalls registry msgs calls :=
      List.mem_map_of_mem _ hc
    rwa [hone] at hmem
  · intro oracle maxToolLoops messages hm hx
    exact runCompat_ok oracle registry maxToolLoops messages hm hx

/-- Claim C6, witness: an empty registry and a concrete call. -/
theorem C6_witness :
    execOneCall [] [] missingCall =
      ⟨missingCall.callId, missingCall.toolName,
       .errorText (toolNotAvailableMsg missingCall.toolName)⟩ ∧
    ∃ r, (runCompatibleStream constCallOracle [] 1 oneUserMessage).1 = Except.ok r := by
  have h := C6_unknown_tool [] [] missingCall (Or.inl (by simp [lookupTool]))
  exact ⟨h.1, h.2.2 constCallOracle 1 oneUserMessage (by simp [oneUserMessage]) (by omega)⟩

/-- Claim C7: an exception from a tool's `execute` is caught and converted
into a `Tool execution failed: MESSAGE` error result; the result is part of
the appended tool message and the dispatch run still completes normally
(nothing propagates). -/
theorem C7_tool_failure_isolation (registry : List (Str × ToolDef))
    (msgs : List ConvMessage) (c : ParsedToolCall) (t : ToolDef)
    (exec : Option Jsn → List ConvMessage → Except Str (Option Jsn)) (m : Str)
    (hlook : lookupTool registry c.toolName = some t)
    (hex : t.execute = some exec)
    (herr : exec (callInputOf c) msgs = .error m) :
    execOneCall registry msgs c = ⟨c.callId, c.toolName, .errorText (toolFailedMsg m)⟩ ∧
    (∀ calls, c ∈ calls →
      (⟨c.callId, c.toolName, .errorText (toolFailedMsg m)⟩ : ToolResultEntry)
        ∈ executeCalls registry msgs calls) ∧
    (∀ oracle maxToolLoops messages, messages ≠ ([] : List ConvMessage) →
      1 ≤ maxToolLoops →
      ∃ r, (runCompatibleStream oracle registry maxToolLoops messages).1 = Except.ok r) := by
  have hone : execOneCall registry msgs c =
      ⟨c.callId, c.toolName, .errorText (toolFailedMsg m)⟩ := by
    simp [execOneCall, hlook, hex, herr, toolFailedMsg]
  refine ⟨hone, ?_, ?_⟩
  · intro calls hc
    have hmem : execOneCall registry msgs c ∈ executeCalls registry msgs calls :=
      List.mem_map_of_mem _ hc
    rwa [hone] at hmem
  · intro oracle maxToolLoops messages hm hx
    exact runCompat_ok oracle registry maxToolLoops messages hm hx

/-- Claim C7, witness: a concrete registry whose tool always throws. -/
theorem C7_witness :
    execOneCall throwingRegistry [] boomCall =
      ⟨boomCall.callId, boomCall.toolName, .errorText (toolFailedMsg "kaput".toList)⟩ ∧
    ∃ r, (runCompatibleStream constCallOracle throwingRegistry 1 oneUserMessage).1 =
      Except.ok r := by
  have h := C7_tool_failure_isolation throwingRegistry [] boomCall
    ⟨[], some (fun _ _ => Except.error "kaput".toList)⟩
    (fun _ _ => Except.error "kaput".toList) "kaput".toList rfl rfl rfl
  exact ⟨h.1, h.2.2 constCallOracle 1 oneUserMessage (by simp [oneUserMessage]) (by omega)⟩

/-- Claim C10: both dispatch entry points reject an empty conversation
synchronously, before any model invocation (the invocation count of the
bounded loop is 0, and the streaming wrapper returns the error before
producing a stream). -/
theorem C10_empty_messages_guard (oracle : Nat → List ConvMessage → StepResp)
    (registry : List (Str × ToolDef)) (maxToolLoops : Nat)
    (streams : Nat → List Str) (respMsgs : Nat → List ConvMessage) (fuel : Nat) :
    runCompatibleStream oracle registry maxToolLoops [] =
      (Except.error "runCompatibleStream requires at least one message".toList, 0) ∧
    streamTextWithCompatibleTools streams respMsgs registry [] fuel =
      Except.error "streamTextWithCompatibleTools requires at least one message".toList :=
  ⟨rfl, rfl⟩

/-! ### Claim C9: safe split points -/

theorem scanDown_sound (p : Nat → Bool) (lo : Nat) :
    ∀ hi j, scanDown p lo hi = some j → p j = true ∧ lo ≤ j ∧ j ≤ hi := by
  intro hi
  induction hi with
  | zero =>
    intro j h
    simp only [scanDown] at h
    split at h
    · exact absurd h (by simp)
    · split at h
      · cases h
        exact ⟨by assumption, by omega, le_refl _⟩
      · exact absurd h (by simp)
  | succ n ih =>
    intro j h
    simp only [scanDown] at h
    split at h
    · exact absurd h (by simp)
    · split at h
      · cases h
        exact ⟨by assumption, by omega, le_refl _⟩
      · have hrec := ih j h
        exact ⟨hrec.1, hrec.2.1, by omega⟩

theorem scanDown_none (p : Nat → Bool) (lo : Nat) :
    ∀ hi, scanDown p lo hi = none → ∀ i, lo ≤ i → i ≤ hi → p i = false := by
  intro hi
  induction hi with
  | zero =>
    intro h i hlo hhi
    simp only [scanDown] at h
    split at h
    · omega
    · split at h
      · exact absurd h (by simp)
      · have : i = 0 := by omega
        subst this
        simpa using ‹¬p 0 = true›
  | succ n ih =>
    intro h i hlo hhi
    simp only [scanDown] at h
    split at h
    · omega
    · split at h
      · exact absurd h (by simp)
      · rcases Nat.lt_or_ge i (n + 1) with hlt | hge
        · exact ih h i hlo (by omega)
        · have : i = n + 1 := by omega
          subst this
          simpa using ‹¬p (n + 1) = true›

theorem scanUpAux_sound (p : Nat → Bool) :
    ∀ n i j, scanUpAux p n i = some j → p j = true ∧ i ≤ j ∧ j < i + n := by
  intro n
  induction n with
  | zero =>
    intro i j h
    exact absurd h (by simp [scanUpAux])
  | succ n ih =>
    intro i j h
    simp only [scanUpAux] at h
    split at h
    · cases h
      exact ⟨by assumption, le_refl _, by omega⟩
    · have hrec := ih (i + 1) j h
      exact ⟨hrec.1, by omega, by omega⟩

theorem scanUpAux_none (p : Nat → Bool) :
    ∀ n i, scanUpAux p n i = none → ∀ k, i ≤ k → k < i + n → p k = false := by
  intro n
  induction n with
  | zero =>
    intro i h k h1 h2
    omega
  | succ n ih =>
    intro i h k h1 h2
    simp only [scanUpAux] at h
    split at h
    · exact absurd h (by simp)
    · rcases Nat.eq_or_lt_of_le h1 with heq | hlt
      · subst heq
        simpa using ‹¬p i = true›
      · exact ih (i + 1) h k (by omega) (by omega)

theorem scanUp_sound (p : Nat → Bool) (hi i j : Nat) (h : scanUp p hi i = some j) :
    p j = true ∧ i ≤ j ∧ j < hi := by
  have haux := scanUpAux_sound p (hi - i) i j h
  refine ⟨haux.1, haux.2.1, ?_⟩
  rcases Nat.lt_or_ge i hi with hlt | hge
  · omega
  · have : hi - i = 0 := by omega
    rw [scanUp, this] at h
    exact absurd h (by simp [scanUpAux])

theorem scanUp_none (p : Nat → Bool) (hi i : Nat) (h : scanUp p hi i = none) :
    ∀ k, i ≤ k → k < hi → p k = false := by
  intro k h1 h2
  exact scanUpAux_none p (hi - i) i h k h1 (by omega)

/-- Claim C9, counterexample: the last-resort branch of `findSafeSplitPoint`
returns the clamped target even when it is strictly inside an unsafe zone.
For a 300-character link (whole span unsafe) and target 150, both scans fail
and the returned offset 150 is unsafe — contradicting "the offset returned by
findSafeSplitPoint is never strictly inside an unsafe zone". -/
theorem C9_counterexample :
    findSafeSplitPoint linkTree300 300 150 100 = 150 ∧
    isPositionSafe 150 (getUnsafeZones1 linkTree300) = false :=
  ⟨rfl, rfl⟩

/-- Claim C9 (amended): candidate offsets are scanned backward from the target
first, then forward; whenever either scan finds a markdown-safe offset the
returned offset is safe (never strictly inside an unsafe zone), and only when
every candidate in both windows is unsafe does the function fall back to the
(possibly unsafe) clamped target. -/
theorem C9_safe_split (tree : MdNode) (sourceLen target maxBacktrack : Nat)
    (ht : target < sourceLen) :
    ((∃ i, target - maxBacktrack ≤ i ∧ i ≤ target ∧
        isPositionSafe i (getUnsafeZones1 tree) = true) →
      isPositionSafe (findSafeSplitPoint tree sourceLen target maxBacktrack)
        (getUnsafeZones1 tree) = true) ∧
    ((∀ i, target - maxBacktrack ≤ i → i ≤ target →
        isPositionSafe i (getUnsafeZones1 tree) = false) →
      (∃ i, target + 1 ≤ i ∧ i < min sourceLen (target + maxBacktrack) ∧
        isPositionSafe i (getUnsafeZones1 tree) = true) →
      isPositionSafe (findSafeSplitPoint tree sourceLen target maxBacktrack)
        (getUnsafeZones1 tree) = true) ∧
    ((∀ i, target - maxBacktrack ≤ i → i ≤ target →
        isPositionSafe i (getUnsafeZones1 tree) = false) →
      (∀ i, target + 1 ≤ i → i < min sourceLen (target + maxBacktrack) →
        isPositionSafe i (getUnsafeZones1 tree) = false) →
      findSafeSplitPoint tree sourceLen target maxBacktrack = target) := by
  have hmin : min target sourceLen = target := Nat.min_eq_left (Nat.le_of_lt ht)
  have hunfold : findSafeSplitPoint tree sourceLen target maxBacktrack =
      (match scanDown (fun i => isPositionSafe i (getUnsafeZones1 tree))
          (target - maxBacktrack) target with
      | some i => i
      | none =>
        match scanUp (fun i => isPositionSafe i (getUnsafeZones1 tree))
            (min sourceLen (target + maxBacktrack)) (target + 1) with
        | some i => i
        | none => target) := by
    simp only [findSafeSplitPoint, findSafeSplitPointZ, hmin]
    rw [if_neg (by omega)]
  refine ⟨?_, ?_, ?_⟩
  · rintro ⟨i, h1, h2, h3⟩
    rw [hunfold]
    cases hsd : scanDown (fun i => isPositionSafe i (getUnsafeZones1 tree))
        (target - maxBacktrack) target with
    | some j => simpa using (scanDown_sound _ _ _ _ hsd).1
    | none =>
      have := scanDown_none _ _ _ hsd i h1 h2
      simp only at this
      rw [this] at h3
      exact absurd h3 (by simp)
  · rintro hall ⟨i, h1, h2, h3⟩
    rw [hunfold]
    cases hsd : scanDown (fun i => isPositionSafe i (getUnsafeZones1 tree))
        (target - maxBacktrack) target with
    | some j =>
      have hs := scanDown_sound _ _ _ _ hsd
      have := hall j hs.2.1 hs.2.2
      simp only at hs
      rw [this] at hs
      exact absurd hs.1 (by simp)
    | none =>
      cases hsu : scanUp (fun i => isPositionSafe i (getUnsafeZones1 tree))
          (min sourceLen (target + maxBacktrack)) (target + 1) with
      | some j => simpa using (scanUp_sound _ _ _ _ hsu).1
      | none =>
        have := scanUp_none _ _ _ hsu i h1 h2
        simp only at this
        rw [this] at h3
        exact absurd h3 (by simp)
  · intro hall hfwd
    rw [hunfold]
    cases hsd : scanDown (fun i => isPositionSafe i (getUnsafeZones1 tree))
        (target - maxBacktrack) target with
    | some j =>
      have hs := scanDown_sound _ _ _ _ hsd
      have := hall j hs.2.1 hs.2.2
      simp only at hs
      rw [this] at hs
      exact absurd hs.1 (by simp)
    | none =>
      cases hsu : scanUp (fun i => isPositionSafe i (getUnsafeZones1 tree))
          (min sourceLen (target + maxBacktrack)) (target + 1) with
      | some j =>
        have hs := scanUp_sound _ _ _ _ hsu
        have := hfwd j hs.2.1 hs.2.2
        simp only at hs
        rw [this] at hs
        exact absurd hs.1 (by simp)
      | none => rfl

/-- Claim C9, witness of the amended theorem: a bold span at 4..9 of a
12-character source with target 5; the backward scan finds the safe offset 4. -/
theorem C9_witness :
    (5 : Nat) < 12 ∧
    (∃ i, 5 - 3 ≤ i ∧ i ≤ 5 ∧ isPositionSafe i (getUnsafeZones1 strongTree12) = true) ∧
    isPositionSafe (findSafeSplitPoint strongTree12 12 5 3)
      (getUnsafeZones1 strongTree12) = true := by
  refine ⟨by omega, ⟨4, by omega, by omega, by decide⟩, ?_⟩
  exact (C9_safe_split strongTree12 12 5 3 (by omega)).1 ⟨4, by omega, by omega, by decide⟩

/-! ### Claim C3: tag extraction under arbitrary stream fragmentation -/

theorem tag_len : fetchToolTag.length = 47 := by decide

theorem tag_prefix_start : ∀ k, k < 48 →
    prefixAgrees (fetchToolTag.take k) toolCallOpenLit = true := by decide

theorem tag_no_early_end : ∀ k, k < 47 → 1 ≤ k →
    maybeToolCallEnd (fetchToolTag.take k) = false := by decide

theorem maybeToolCallStart_of_prefix_tag (c : Str) (h : c <+: fetchToolTag) :
    maybeToolCallStart c = true := by
  have hc : c = fetchToolTag.take c.length := List.prefix_iff_eq_take.mp h
  have hlen : c.length ≤ 47 := by
    have hle := h.length_le
    rw [tag_len] at hle
    exact hle
  rw [maybeToolCallStart, hc]
  exact tag_prefix_start c.length (by omega)

theorem tag_prefix_eq_of_full (q : Str) (h : q <+: fetchToolTag)
    (hlen : q.length = 47) : q = fetchToolTag := by
  have hq : q = fetchToolTag.take q.length := List.prefix_iff_eq_take.mp h
  rw [hlen] at hq
  rw [hq]
  have : fetchToolTag.take 47 = fetchToolTag := by
    conv_lhs => rw [← tag_len]
    exact List.take_length fetchToolTag
  exact this

theorem maybeToolCallEnd_of_proper_prefix (q : Str) (h : q <+: fetchToolTag)
    (hne : q ≠ []) (hfull : q ≠ fetchToolTag) : maybeToolCallEnd q = false := by
  have hq : q = fetchToolTag.take q.length := List.prefix_iff_eq_take.mp h
  have hle : q.length ≤ 47 := by
    have hle := h.length_le
    rw [tag_len] at hle
    exact hle
  have hlt : q.length < 47 := by
    rcases Nat.lt_or_ge q.length 47 with hlt | hge
    · exact hlt
    · exact absurd (tag_prefix_eq_of_full q h (by omega)) hfull
  have hpos : 1 ≤ q.length := by
    cases q with
    | nil => exact absurd rfl hne
    | cons a as => simp
  rw [hq]
  exact tag_no_early_end q.length hlt hpos

theorem scanBufferCheck_empty : scanBufferCheck (bufState []) = midState [] := by decide

theorem scanBufferCheck_full : scanBufferCheck (bufState fetchToolTag) = doneState := by decide

theorem scanBufferCheck_proper (q : Str) (h : q <+: fetchToolTag) (hne : q ≠ [])
    (hfull : q ≠ fetchToolTag) : scanBufferCheck (bufState q) = bufState q := by
  rw [scanBufferCheck]
  rw [show (bufState q).inToolCall = true from rfl,
      show (bufState q).buffer = q from rfl,
      maybeToolCallEnd_of_proper_prefix q h hne hfull]
  simp

theorem bufState_eq_midState (q : Str) (hne : q ≠ []) : bufState q = midState q := by
  have hq : q.isEmpty = false := by simpa [List.isEmpty_iff] using hne
  simp [bufState, midState, hq]

theorem scanStep_inToolCall (st : ScanState) (c : Str) (h : st.inToolCall = true) :
    scanStep st c = scanBufferCheck { st with buffer := st.buffer ++ c } := by
  rw [scanStep, h]
  simp

theorem scanStep_doneState_nil : scanStep doneState [] = doneState := by decide

theorem scanStep_stateFor (p c : Str) (h : (p ++ c) <+: fetchToolTag) :
    scanStep (stateFor p) c = stateFor (p ++ c) := by
  by_cases hp : p = fetchToolTag
  · subst hp
    have hc : c = [] := by
      have hle := h.length_le
      rw [tag_len] at hle
      simp only [List.length_append, tag_len] at hle
      have : c.length = 0 := by omega
      exact List.length_eq_zero.mp this
    subst hc
    simp only [stateFor, if_pos rfl, List.append_nil]
    exact scanStep_doneState_nil
  · rw [stateFor, if_neg hp]
    by_cases hpe : p = []
    · subst hpe
      simp only [List.nil_append] at h ⊢
      have hstep : scanStep (midState []) c = scanBufferCheck (bufState c) := by
        rw [scanStep]
        rw [show (midState []).inToolCall = false from rfl]
        simp only [Bool.false_eq_true, if_false]
        rw [maybeToolCallStart_of_prefix_tag c h]
        rw [show (midState []).toolMatch = none from rfl]
        simp [bufState, midState]
      rw [hstep]
      by_cases hcfull : c = fetchToolTag
      · subst hcfull
        rw [stateFor, if_pos rfl]
        exact scanBufferCheck_full
      · rw [stateFor, if_neg hcfull]
        by_cases hce : c = []
        · subst hce
          exact scanBufferCheck_empty
        · rw [scanBufferCheck_proper c h hce hcfull]
          exact bufState_eq_midState c hce
    · have hitc : (midState p).inToolCall = true := by
        simp [midState, List.isEmpty_iff, hpe]
      have hstep : scanStep (midState p) c = scanBufferCheck (bufState (p ++ c)) := by
        rw [scanStep_inToolCall (midState p) c hitc]
        congr 1
        simp [midState, bufState, List.isEmpty_iff, hpe]
      rw [hstep]
      have hpc : p ++ c ≠ [] := by
        intro hx
        exact hpe (List.append_eq_nil.mp hx).1
      by_cases hfull : p ++ c = fetchToolTag
      · rw [hfull, stateFor, if_pos rfl]
        rw [← hfull]
        rw [hfull]
        exact scanBufferCheck_full
      · rw [stateFor, if_neg hfull]
        rw [scanBufferCheck_proper (p ++ c) h hpc hfull]
        exact bufState_eq_midState (p ++ c) hpc

theorem scanRun_tag : ∀ (fs : List Str) (p : Str), p ++ fs.flatten = fetchToolTag →
    scanRun (stateFor p) fs = doneState := by
  intro fs
  induction fs with
  | nil =>
    intro p h
    simp only [List.flatten_nil, List.append_nil] at h
    subst h
    simp [scanRun, stateFor]
  | cons c rest ih =>
    intro p h
    have hassoc : (p ++ c) ++ rest.flatten = fetchToolTag := by
      simpa [List.append_assoc] using h
    have hpre : (p ++ c) <+: fetchToolTag := ⟨rest.flatten, hassoc⟩
    have hstep := scanStep_stateFor p c hpre
    show scanRun (scanStep (stateFor p) c) rest = doneState
    rw [hstep]
    exact ih (p ++ c) hassoc

/-- Claim C3: however the text `<tool-call tool="fetch">{"url":"x"}</tool-call>`
is split into an ordered sequence of fragments (single characters included),
the scanner detects exactly the one tool call — toolName `fetch`, payload
`{"url":"x"}` parsing to the object `{url: "x"}` — and not one character of
the tag literal reaches the plain-text output. -/
theorem C3_tag_extraction (fs : List Str) (h : fs.flatten = fetchToolTag) :
    (scanFinish (scanRun scanInit fs)).toolMatch =
      some ("fetch".toList, fetchPayloadLit) ∧
    (scanFinish (scanRun scanInit fs)).emitted = [] ∧
    tryParseJson fetchPayloadLit = some (Jsn.obj [("url".toList, Jsn.str "x".toList)]) := by
  have hinit : scanInit = stateFor [] := by decide
  have hrun : scanRun scanInit fs = doneState := by
    rw [hinit]
    exact scanRun_tag fs [] (by simpa using h)
  rw [hrun]
  refine ⟨rfl, rfl, rfl⟩

/-- Claim C3, witness: the fully fragmented stream of single characters. -/
theorem C3_witness :
    (fetchToolTag.map (fun c => [c])).flatten = fetchToolTag ∧
    (scanFinish (scanRun scanInit (fetchToolTag.map (fun c => [c])))).toolMatch =
      some ("fetch".toList, fetchPayloadLit) ∧
    (scanFinish (scanRun scanInit (fetchToolTag.map (fun c => [c])))).emitted = [] := by
  have hf : (fetchToolTag.map (fun c => [c])).flatten = fetchToolTag := by decide
  have h := C3_tag_extraction (fetchToolTag.map (fun c => [c])) hf
  exact ⟨hf, h.1, h.2.1⟩

/-! ### Claim C4: the scanner never silently drops buffered text -/

theorem scanBufferCheck_spec (st : ScanState) :
    scanBufferCheck st = st ∨
    (∃ m, firstToolCallMatch st.buffer = some m ∧ scanBufferCheck st =
      { st with carryOver := m.post, toolMatch := some (m.name, m.payload),
                buffer := [], inToolCall := false }) ∨
    (firstToolCallMatch st.buffer = none ∧ scanBufferCheck st =
      { st with emitted := st.emitted ++ st.buffer, buffer := [], inToolCall := false }) := by
  rw [scanBufferCheck]
  by_cases hc : (st.inToolCall && maybeToolCallEnd st.buffer) = true
  · rw [if_pos hc]
    cases hm : firstToolCallMatch st.buffer with
    | some m => exact Or.inr (Or.inl ⟨m, rfl, rfl⟩)
    | none => exact Or.inr (Or.inr ⟨rfl, rfl⟩)
  · rw [if_neg hc]
    exact Or.inl rfl

theorem scanStep_spec (st : ScanState) (c : Str) :
    (st.inToolCall = true ∧
      scanStep st c = scanBufferCheck { st with buffer := st.buffer ++ c }) ∨
    (st.inToolCall = false ∧
      scanStep st c = scanBufferCheck { st with inToolCall := true, buffer := c }) ∨
    (st.inToolCall = false ∧ (maybeToolCallStart c && st.toolMatch.isNone) = false ∧
      scanStep st c =
        { st with
            emitted := st.emitted ++
              (if st.pendingBoundarySeparator then
                maybeYieldBoundarySeparator st.lastEmittedChar c else []) ++ c,
            lastEmittedChar := lastCharOr c (lastCharOr
              (if st.pendingBoundarySeparator then
                maybeYieldBoundarySeparator st.lastEmittedChar c else []) st.lastEmittedChar),
            pendingBoundarySeparator := false }) := by
  by_cases h1 : st.inToolCall = true
  · rw [scanStep, if_pos h1]
    exact Or.inl ⟨h1, rfl⟩
  · have h1f : st.inToolCall = false := by
      cases hx : st.inToolCall
      · rfl
      · exact absurd hx h1
    by_cases h2 : (maybeToolCallStart c && st.toolMatch.isNone) = true
    · rw [scanStep, if_neg h1, if_pos h2]
      exact Or.inr (Or.inl ⟨h1f, rfl⟩)
    · have h2f : (maybeToolCallStart c && st.toolMatch.isNone) = false := by
        cases hx : (maybeToolCallStart c && st.toolMatch.isNone)
        · rfl
        · exact absurd hx h2
      rw [scanStep, if_neg h1, if_neg h2]
      exact Or.inr (Or.inr ⟨h1f, h2f, rfl⟩)

theorem scanStep_toolMatch_isSome (st : ScanState) (c : Str)
    (h : st.toolMatch.isSome) : (scanStep st c).toolMatch.isSome := by
  rcases scanStep_spec st c with ⟨_, heq⟩ | ⟨_, heq⟩ | ⟨_, hcond, heq⟩
  · rw [heq]
    rcases scanBufferCheck_spec { st with buffer := st.buffer ++ c } with
      hb | ⟨m, _, hb⟩ | ⟨_, hb⟩
    · rw [hb]; exact h
    · rw [hb]; simp
    · rw [hb]; exact h
  · rw [heq]
    rcases scanBufferCheck_spec { st with inToolCall := true, buffer := c } with
      hb | ⟨m, _, hb⟩ | ⟨_, hb⟩
    · rw [hb]; exact h
    · rw [hb]; simp
    · rw [hb]; exact h
  · rw [heq]
    exact h

theorem scanRun_toolMatch_isSome (fs : List Str) :
    ∀ st : ScanState, st.toolMatch.isSome → (scanRun st fs).toolMatch.isSome := by
  induction fs with
  | nil => intro st h; exact h
  | cons c rest ih =>
    intro st h
    exact ih (scanStep st c) (scanStep_toolMatch_isSome st c h)

theorem scanStep_toolMatch_none (st : ScanState) (c : Str)
    (h : (scanStep st c).toolMatch = none) : st.toolMatch = none := by
  by_cases hs : st.toolMatch.isSome
  · have hsome := scanStep_toolMatch_isSome st c hs
    rw [h] at hsome
    exact absurd hsome (by simp)
  · exact Option.not_isSome_iff_eq_none.mp hs

theorem scanStep_conserve (st : ScanState) (c : Str) (hwf : scanWf st)
    (hnone : (scanStep st c).toolMatch = none) :
    (scanStep st c).emitted ++ (scanStep st c).buffer =
      st.emitted ++ st.buffer ++ c ∧ scanWf (scanStep st c) := by
  simp only [scanWf] at hwf ⊢
  rcases scanStep_spec st c with ⟨hitc, heq⟩ | ⟨hitc, heq⟩ | ⟨hitc, _, heq⟩
  · rw [heq] at hnone ⊢
    rcases scanBufferCheck_spec { st with buffer := st.buffer ++ c } with
      hb | ⟨m, _, hb⟩ | ⟨_, hb⟩
    · rw [hb]
      refine ⟨by simp [List.append_assoc], fun hf => ?_, hwf.2⟩
      rw [hitc] at hf
      exact absurd hf (by simp)
    · rw [hb] at hnone
      exact absurd hnone (by simp)
    · rw [hb]
      exact ⟨by simp [List.append_assoc], fun _ => rfl, hwf.2⟩
  · have hbuf : st.buffer = [] := hwf.1 hitc
    rw [heq] at hnone ⊢
    rcases scanBufferCheck_spec { st with inToolCall := true, buffer := c } with
      hb | ⟨m, _, hb⟩ | ⟨_, hb⟩
    · rw [hb]
      exact ⟨by simp [hbuf], fun hf => absurd hf (by simp), hwf.2⟩
    · rw [hb] at hnone
      exact absurd hnone (by simp)
    · rw [hb]
      exact ⟨by simp [hbuf], fun _ => rfl, hwf.2⟩
  · have hbuf : st.buffer = [] := hwf.1 hitc
    rw [heq]
    rw [hwf.2]
    exact ⟨by simp [hbuf], fun _ => hbuf, rfl⟩

theorem scanRun_conserve (fs : List Str) :
    ∀ st : ScanState, scanWf st → (scanRun st fs).toolMatch = none →
      (scanRun st fs).emitted ++ (scanRun st fs).buffer =
        st.emitted ++ st.buffer ++ fs.flatten ∧ scanWf (scanRun st fs) := by
  induction fs with
  | nil =>
    intro st hwf _
    exact ⟨by simp [scanRun], hwf⟩
  | cons c rest ih =>
    intro st hwf hnone
    have hrun : scanRun st (c :: rest) = scanRun (scanStep st c) rest := rfl
    rw [hrun] at hnone ⊢
    have hstep_none : (scanStep st c).toolMatch = none := by
      by_cases hs : (scanStep st c).toolMatch.isSome
      · have hsome := scanRun_toolMatch_isSome rest (scanStep st c) hs
        rw [hnone] at hsome
        exact absurd hsome (by simp)
      · exact Option.not_isSome_iff_eq_none.mp hs
    have hstep := scanStep_conserve st c hwf hstep_none
    have hrec := ih (scanStep st c) hstep.2 hnone
    refine ⟨?_, hrec.2⟩
    rw [hrec.1, hstep.1]
    simp [List.append_assoc]

theorem scanFinish_toolMatch (st : ScanState) :
    (scanFinish st).toolMatch = st.toolMatch := by
  rw [scanFinish]
  split
  · split <;> rfl
  · rfl

theorem scanFinish_conserve (st : ScanState) (hwf : scanWf st)
    (hnone : st.toolMatch = none) :
    (scanFinish st).emitted = st.emitted ++ st.buffer := by
  rw [scanFinish]
  by_cases hb : st.buffer = []
  · split
    · split
      · simp [hb]
      · simp [hb]
    · simp [hb]
  · have hcond : (st.toolMatch.isNone && !st.buffer.isEmpty) = true := by
      rw [hnone]
      simp [List.isEmpty_iff, hb]
    rw [if_pos hcond]
    by_cases hitc : st.inToolCall = true
    · rw [if_pos hitc]
    · have : st.buffer = [] := hwf.1 (by
        cases hx : st.inToolCall
        · rfl
        · exact absurd hx hitc)
      exact absurd this hb

/-- Claim C4: the scanner never silently drops buffered text.  (a) If the
buffer (after the new fragment) ends with the closing literal but fails to
parse as a tag, the whole buffer is emitted as plain text.  (b) If the stream
ends while a tag is still buffering with no completed match, the buffer is
flushed as plain text.  (c) Consequently a whole scan pass that detects no
tool call emits exactly the concatenation of its input fragments. -/
theorem C4_no_silent_drop :
    (∀ (st : ScanState) (c : Str), st.inToolCall = true →
      maybeToolCallEnd (st.buffer ++ c) = true →
      firstToolCallMatch (st.buffer ++ c) = none →
      (scanStep st c).emitted = st.emitted ++ st.buffer ++ c) ∧
    (∀ st : ScanState, st.toolMatch = none → st.buffer ≠ [] → st.inToolCall = true →
      (scanFinish st).emitted = st.emitted ++ st.buffer) ∧
    (∀ fs : List Str, (scanFinish (scanRun scanInit fs)).toolMatch = none →
      (scanFinish (scanRun scanInit fs)).emitted = fs.flatten) := by
  refine ⟨?_, ?_, ?_⟩
  · intro st c hitc hend hmatch
    rw [scanStep, if_pos hitc, scanBufferCheck]
    have hcond : (({ st with buffer := st.buffer ++ c } : ScanState).inToolCall &&
        maybeToolCallEnd ({ st with buffer := st.buffer ++ c } : ScanState).buffer) = true := by
      simp only [hitc, hend]
      rfl
    rw [if_pos hcond]
    rw [show ({ st with buffer := st.buffer ++ c } : ScanState).buffer = st.buffer ++ c
        from rfl, hmatch]
    simp [List.append_assoc]
  · intro st hnone hne hitc
    rw [scanFinish]
    have hcond : (st.toolMatch.isNone && !st.buffer.isEmpty) = true := by
      simp [hnone, List.isEmpty_iff, hne]
    rw [if_pos hcond, if_pos hitc]
  · intro fs hnone
    have hfin_tm : (scanRun scanInit fs).toolMatch = none := by
      rw [← scanFinish_toolMatch]
      exact hnone
    have hcons := scanRun_conserve fs scanInit ⟨fun _ => rfl, rfl⟩ hfin_tm
    have hfin := scanFinish_conserve (scanRun scanInit fs) hcons.2 hfin_tm
    rw [hfin, hcons.1]
    rfl

/-- Claim C4, witness: a malformed tag (unquoted attribute) flushed on its
end-check, an interrupted buffering flushed at stream end, and a two-fragment
stream with a dangling possible tag start. -/
theorem C4_witness :
    (scanStep ⟨"<tool-call ".toList, true, none, [], [], none, false⟩
        "tool=fetch>x</tool-call>".toList).emitted =
      [] ++ "<tool-call ".toList ++ "tool=fetch>x</tool-call>".toList ∧
    (scanFinish ⟨"<tool-ca".toList, true, none, [], "hi ".toList, none, false⟩).emitted =
      "hi ".toList ++ "<tool-ca".toList ∧
    (scanFinish (scanRun scanInit ["hello ".toList, "<tool".toList])).emitted =
      (["hello ".toList, "<tool".toList] : List Str).flatten := by
  refine ⟨?_, ?_, ?_⟩
  · exact C4_no_silent_drop.1 ⟨"<tool-call ".toList, true, none, [], [], none, false⟩
      "tool=fetch>x</tool-call>".toList rfl (by decide) (by decide)
  · exact C4_no_silent_drop.2.1 ⟨"<tool-ca".toList, true, none, [], "hi ".toList, none, false⟩
      rfl (by decide) rfl
  · exact C4_no_silent_drop.2.2 ["hello ".toList, "<tool".toList] (by decide)

/-! ### Claim C8: fenced code blocks are never auto-closed -/

theorem strStarts_prefix_iff : ∀ (pat s : Str), strStarts pat s = true ↔ pat <+: s := by
  intro pat
  induction pat with
  | nil => intro s; simp [strStarts]
  | cons p ps ih =>
    intro s
    cases s with
    | nil => simp [strStarts]
    | cons c cs =>
      rw [strStarts, Bool.and_eq_true, List.cons_prefix_cons]
      constructor
      · rintro ⟨h1, h2⟩
        exact ⟨by simpa using h1, (ih cs).mp h2⟩
      · rintro ⟨h1, h2⟩
        exact ⟨by simpa using h1, (ih cs).mpr h2⟩

theorem findSub_decomp (pat : Str) :
    ∀ (s : Str) (i : Nat), findSub pat s = some i →
      s = s.take i ++ pat ++ s.drop (i + pat.length) := by
  intro s
  induction s with
  | nil =>
    intro i h
    rw [findSub] at h
    split at h
    · cases h
      rename_i hemp
      rw [List.isEmpty_iff] at hemp
      simp [hemp]
    · exact absurd h (by simp)
  | cons c cs ih =>
    intro i h
    rw [findSub] at h
    split at h
    · cases h
      rename_i hstart
      rw [strStarts_prefix_iff] at hstart
      have hp := List.prefix_iff_eq_take.mp hstart
      conv_lhs => rw [← List.take_append_drop pat.length (c :: cs)]
      rw [← hp]
      simp
    · rw [Option.map_eq_some'] at h
      rcases h with ⟨j, hj, rfl⟩
      have hrec := ih j hj
      calc c :: cs = c :: (cs.take j ++ pat ++ cs.drop (j + pat.length)) := by
            conv_lhs => rw [hrec]
        _ = (c :: cs).take (j + 1) ++ pat ++ (c :: cs).drop (j + 1 + pat.length) := by
            rw [List.take_succ_cons]
            have hn : j + 1 + pat.length = (j + pat.length) + 1 := by omega
            rw [hn, List.drop_succ_cons]
            simp

theorem hasSub_count (pat s : Str) (c : Char) (h : hasSub pat s = true) :
    pat.count c ≤ s.count c := by
  rw [hasSub, Option.isSome_iff_exists] at h
  rcases h with ⟨i, hi⟩
  have hd := findSub_decomp pat s i hi
  conv_rhs => rw [hd]
  rw [List.count_append, List.count_append]
  omega

theorem findSub_lastNul_none (q : Str) :
    ∀ s : Str, (∀ c ∈ s, c ≠ nulChar) → findSub (q ++ [nulChar]) s = none := by
  intro s
  induction s with
  | nil =>
    intro _
    rw [findSub]
    simp
  | cons c cs ih =>
    intro hs
    rw [findSub]
    have hns : strStarts (q ++ [nulChar]) (c :: cs) = false := by
      by_cases hx : strStarts (q ++ [nulChar]) (c :: cs) = true
      · rw [strStarts_prefix_iff] at hx
        have hmem : nulChar ∈ c :: cs := hx.subset (by simp)
        exact absurd rfl (hs nulChar hmem)
      · cases hb : strStarts (q ++ [nulChar]) (c :: cs)
        · rfl
        · exact absurd hb hx
    rw [hns]
    simp only [Bool.false_eq_true, if_false]
    rw [ih (fun x hx => hs x (List.mem_cons_of_mem c hx))]
    rfl

theorem strStarts_append_lastNul (q x s : Str) (hs : ∀ c ∈ s, c ≠ nulChar) :
    strStarts (q ++ [nulChar]) (x ++ s) = strStarts (q ++ [nulChar]) x := by
  by_cases hx : strStarts (q ++ [nulChar]) x = true
  · rw [hx]
    rw [strStarts_prefix_iff] at hx ⊢
    exact hx.trans (List.prefix_append x s)
  · have hxf : strStarts (q ++ [nulChar]) x = false := by
      cases hb : strStarts (q ++ [nulChar]) x
      · rfl
      · exact absurd hb hx
    rw [hxf]
    by_cases hy : strStarts (q ++ [nulChar]) (x ++ s) = true
    · exfalso
      rw [strStarts_prefix_iff] at hy
      have hp := List.prefix_iff_eq_take.mp hy
      rw [List.take_append_eq_append_take] at hp
      by_cases hlen : (q ++ [nulChar]).length ≤ x.length
      · have hz : (q ++ [nulChar]).length - x.length = 0 := by omega
        rw [hz] at hp
        simp only [List.take_zero, List.append_nil] at hp
        have : (q ++ [nulChar]) <+: x := List.prefix_iff_eq_take.mpr hp
        rw [← strStarts_prefix_iff] at this
        rw [this] at hxf
        exact absurd hxf (by simp)
      · have hxfull : x.take (q ++ [nulChar]).length = x := by
          apply List.take_of_length_le
          omega
        rw [hxfull] at hp
        set t := s.take ((q ++ [nulChar]).length - x.length) with ht
        have htne : t ≠ [] := by
          intro hemp
          rw [hemp, List.append_nil] at hp
          have : (q ++ [nulChar]).length = x.length := by rw [hp]
          omega
        have hlast : (q ++ [nulChar]).getLast? = some nulChar := List.getLast?_concat q
        rw [hp, List.getLast?_append_of_ne_nil x htne] at hlast
        have hmem : nulChar ∈ t := List.mem_of_mem_getLast? hlast
        have : nulChar ∈ s := List.take_subset _ s hmem
        exact absurd rfl (hs nulChar this)
    · cases hb : strStarts (q ++ [nulChar]) (x ++ s)
      · rfl
      · exact absurd hb hy

theorem findSub_append_lastNul (q : Str) :
    ∀ (a s : Str), (∀ c ∈ s, c ≠ nulChar) →
      findSub (q ++ [nulChar]) (a ++ s) = findSub (q ++ [nulChar]) a := by
  intro a
  induction a with
  | nil =>
    intro s hs
    rw [List.nil_append, findSub_lastNul_none q s hs, findSub]
    simp
  | cons c a' ih =>
    intro s hs
    have hcons : (c :: a') ++ s = c :: (a' ++ s) := rfl
    rw [hcons, findSub, findSub]
    have hcond : strStarts (q ++ [nulChar]) (c :: (a' ++ s)) =
        strStarts (q ++ [nulChar]) (c :: a') := by
      have := strStarts_append_lastNul q (c :: a') s hs
      simpa using this
    rw [hcond]
    by_cases hb : strStarts (q ++ [nulChar]) (c :: a') = true
    · rw [if_pos hb, if_pos hb]
    · rw [if_neg hb, if_neg hb, ih s hs]

theorem findSub_le_length (pat : Str) :
    ∀ (s : Str) (i : Nat), findSub pat s = some i → i + pat.length ≤ s.length := by
  intro s
  induction s with
  | nil =>
    intro i h
    rw [findSub] at h
    split at h
    · cases h
      rename_i hemp
      rw [List.isEmpty_iff] at hemp
      simp [hemp]
    · exact absurd h (by simp)
  | cons c cs ih =>
    intro i h
    rw [findSub] at h
    split at h
    · cases h
      rename_i hstart
      rw [strStarts_prefix_iff] at hstart
      have := hstart.length_le
      simpa using this
    · rw [Option.map_eq_some'] at h
      rcases h with ⟨j, hj, rfl⟩
      have := ih j hj
      simp only [List.length_cons]
      omega

theorem replaceFirst_append_lastNul (q rep : Str) (a s : Str)
    (hs : ∀ c ∈ s, c ≠ nulChar) :
    replaceFirst (a ++ s) (q ++ [nulChar]) rep =
      replaceFirst a (q ++ [nulChar]) rep ++ s := by
  rw [replaceFirst, replaceFirst, findSub_append_lastNul q a s hs]
  cases h : findSub (q ++ [nulChar]) a with
  | none => rfl
  | some i =>
    dsimp only
    have hle := findSub_le_length _ a i h
    have hi : i ≤ a.length := by omega
    rw [List.take_append_eq_append_take, List.drop_append_eq_append_drop]
    have h1 : i - a.length = 0 := by omega
    have h2 : i + (q ++ [nulChar]).length - a.length = 0 := by
      simp only [List.length_append, List.length_cons, List.length_nil] at hle ⊢
      omega
    rw [h1, h2]
    simp [List.append_assoc]

theorem rtokCloser_no_nul : ∀ (t : RTok), ∀ c ∈ rtokCloser t, c ≠ nulChar := by
  intro t
  cases t with
  | math nl => cases nl <;> decide
  | triBold => decide
  | bold => decide
  | under2 => decide
  | strike => decide
  | ital => decide
  | under1 => decide

theorem rtokCloser_count_btick : ∀ (t : RTok), (rtokCloser t).count btick = 0 := by
  intro t
  cases t with
  | math nl => cases nl <;> decide
  | triBold => decide
  | bold => decide
  | under2 => decide
  | strike => decide
  | ital => decide
  | under1 => decide

theorem rtokCloser_alphabet :
    ∀ (t : RTok), ∀ c ∈ rtokCloser t, c ∈ ([btick, '*', '_', '~', '$', '\n'] : Str) := by
  intro t
  cases t with
  | math nl => cases nl <;> decide
  | triBold => decide
  | bold => decide
  | under2 => decide
  | strike => decide
  | ital => decide
  | under1 => decide

theorem remendCloserOf_no_nul (st : RemendState) :
    ∀ c ∈ remendCloserOf st, c ≠ nulChar := by
  intro c hc
  rw [remendCloserOf, List.mem_append] at hc
  rcases hc with hc | hc
  · split at hc
    · rw [List.mem_singleton] at hc
      subst hc
      decide
    · exact absurd hc (List.not_mem_nil c)
  · rw [List.mem_flatten] at hc
    rcases hc with ⟨l, hl, hcl⟩
    rw [List.mem_map] at hl
    rcases hl with ⟨t, _, rfl⟩
    exact rtokCloser_no_nul t c hcl

theorem remendCloserOf_alphabet (st : RemendState) :
    ∀ c ∈ remendCloserOf st, c ∈ ([btick, '*', '_', '~', '$', '\n'] : Str) := by
  intro c hc
  rw [remendCloserOf, List.mem_append] at hc
  rcases hc with hc | hc
  · split at hc
    · rw [List.mem_singleton] at hc
      subst hc
      decide
    · exact absurd hc (List.not_mem_nil c)
  · rw [List.mem_flatten] at hc
    rcases hc with ⟨l, hl, hcl⟩
    rw [List.mem_map] at hl
    rcases hl with ⟨t, _, rfl⟩
    exact rtokCloser_alphabet t c hcl

theorem remendCloserOf_count_btick (st : RemendState) :
    (remendCloserOf st).count btick ≤ 1 := by
  rw [remendCloserOf, List.count_append]
  have h1 : ((st.stack.map rtokCloser).flatten).count btick = 0 := by
    rw [List.count_flatten]
    apply List.sum_eq_zero
    intro n hn
    rw [List.map_map, List.mem_map] at hn
    rcases hn with ⟨t, _, rfl⟩
    exact rtokCloser_count_btick t
  rw [h1]
  split
  · simp
  · simp

theorem phFence_concat (i : Nat) :
    phFence i = (nulChar :: "FENCE".toList ++ (Nat.repr i).toList) ++ [nulChar] := by
  simp [phFence]

theorem phFenceContent_concat (i : Nat) :
    phFenceContent i = (nulChar :: "FENCECONTENT".toList ++ (Nat.repr i).toList) ++ [nulChar] := by
  simp [phFenceContent]

theorem phInlineCode_concat (i : Nat) :
    phInlineCode i = (nulChar :: "INLINE".toList ++ (Nat.repr i).toList) ++ [nulChar] := by
  simp [phInlineCode]

theorem phInlineContent_concat (i : Nat) :
    phInlineContent i = (nulChar :: "INLINECONTENT".toList ++ (Nat.repr i).toList) ++ [nulChar] := by
  simp [phInlineContent]

theorem restoreOne_append (s : Str) (hs : ∀ c ∈ s, c ≠ nulChar)
    (acc : Str) (ib : Nat × CodeBlock) :
    restoreOne (acc ++ s) ib = restoreOne acc ib ++ s := by
  rw [restoreOne, restoreOne]
  by_cases hf : ib.2.isFence = true
  · rw [if_pos hf, if_pos hf]
    by_cases hc : ib.2.closed = true
    · rw [if_pos hc, if_pos hc, phFence_concat, replaceFirst_append_lastNul _ _ _ _ hs]
    · rw [if_neg hc, if_neg hc, phFenceContent_concat, replaceFirst_append_lastNul _ _ _ _ hs]
  · rw [if_neg hf, if_neg hf]
    by_cases hc : ib.2.closed = true
    · rw [if_pos hc, if_pos hc, phInlineCode_concat, replaceFirst_append_lastNul _ _ _ _ hs]
    · rw [if_neg hc, if_neg hc, phInlineContent_concat, replaceFirst_append_lastNul _ _ _ _ hs]

theorem restore_foldl_append (s : Str) (hs : ∀ c ∈ s, c ≠ nulChar) :
    ∀ (l : List (Nat × CodeBlock)) (acc : Str),
      l.foldl restoreOne (acc ++ s) = l.foldl restoreOne acc ++ s := by
  intro l
  induction l with
  | nil => intro acc; rfl
  | cons ib rest ih =>
    intro acc
    rw [List.foldl_cons, List.foldl_cons, restoreOne_append s hs]
    exact ih (restoreOne acc ib)

theorem restoreCodeBlocks_append (a s : Str) (blocks : List CodeBlock)
    (hs : ∀ c ∈ s, c ≠ nulChar) :
    restoreCodeBlocks (a ++ s) blocks = restoreCodeBlocks a blocks ++ s := by
  rw [restoreCodeBlocks, restoreCodeBlocks, restore_foldl_append s hs]

/-- **C8.** Fenced code blocks are never auto-closed by the markdown completer:
on every input left inside an unterminated ``` fence, `completeMarkdown` is the
escape/restore reconstruction of the input followed by the closers of the still
open inline constructs; that appended closer text contains no ``` fence and is
drawn entirely from the inline-construct closer alphabet (backtick, `*`, `_`,
`~`, `$`, newline), so only bold/italic/strikethrough/inline-code/math are ever
auto-closed. -/
theorem C8_no_fence_autoclose (input : Str) (h : hasUnclosedFence input = true) :
    completeMarkdown input =
      escapeRestoreBase input ++
        remendCloserOf (remendScan remendInit (escapeCodeBlocks input).1) ∧
    hasSub fence3
      (remendCloserOf (remendScan remendInit (escapeCodeBlocks input).1)) = false ∧
    ∀ c ∈ remendCloserOf (remendScan remendInit (escapeCodeBlocks input).1),
      c ∈ ([btick, '*', '_', '~', '$', '\n'] : Str) := by
  refine ⟨?_, ?_, remendCloserOf_alphabet _⟩
  · rw [completeMarkdown, safeRemend, escapeRestoreBase, remendModel]
    exact restoreCodeBlocks_append _ _ _ (remendCloserOf_no_nul _)
  · by_contra hx
    have hsub : hasSub fence3
        (remendCloserOf (remendScan remendInit (escapeCodeBlocks input).1)) = true := by
      cases hb : hasSub fence3
          (remendCloserOf (remendScan remendInit (escapeCodeBlocks input).1))
      · exact absurd hb hx
      · rfl
    have hcnt := hasSub_count fence3 _ btick hsub
    have h3 : fence3.count btick = 3 := by decide
    have h1 := remendCloserOf_count_btick (remendScan remendInit (escapeCodeBlocks input).1)
    omega

/-- Witness for C8 at the unterminated fence input from the repository's tests. -/
theorem C8_witness :
    hasUnclosedFence ("```js\nconst x = 5 *".toList) = true ∧
    (completeMarkdown ("```js\nconst x = 5 *".toList) =
      escapeRestoreBase ("```js\nconst x = 5 *".toList) ++
        remendCloserOf (remendScan remendInit
          (escapeCodeBlocks ("```js\nconst x = 5 *".toList)).1) ∧
    hasSub fence3
      (remendCloserOf (remendScan remendInit
        (escapeCodeBlocks ("```js\nconst x = 5 *".toList)).1)) = false ∧
    ∀ c ∈ remendCloserOf (remendScan remendInit
        (escapeCodeBlocks ("```js\nconst x = 5 *".toList)).1),
      c ∈ ([btick, '*', '_', '~', '$', '\n'] : Str)) :=
  ⟨by decide, C8_no_fence_autoclose ("```js\nconst x = 5 *".toList) (by decide)⟩

/-! ### Claim C2: chunk-splitter content preservation -/

theorem fixedSlicesF_flatten :
    ∀ (fuel : Nat) (content : Str) (maxLen : Nat), 1 ≤ maxLen → content.length < fuel →
      (fixedSlicesF fuel content maxLen).flatten = content := by
  intro fuel
  induction fuel with
  | zero => intro content maxLen _ hlt; omega
  | succ f ih =>
    intro content maxLen hml hlt
    rw [fixedSlicesF]
    have hz : ¬maxLen = 0 := by omega
    rw [if_neg hz]
    by_cases he : content.isEmpty = true
    · rw [if_pos he]
      rw [List.isEmpty_iff] at he
      rw [he]
      rfl
    · rw [if_neg he]
      rw [List.isEmpty_iff] at he
      have hlen : 1 ≤ content.length := by
        cases content with
        | nil => exact absurd rfl he
        | cons c cs => simp
      have hrec : (content.drop maxLen).length < f := by
        rw [List.length_drop]
        omega
      rw [List.flatten_cons, ih (content.drop maxLen) maxLen hml hrec,
        List.take_append_drop]

/-- Counterexample to C2: in smart-splitting mode the splitter strips leading
whitespace from the remainder at a chunk seam, so joining the raw chunks loses
characters ("ab  cd" with budget 3 yields raw chunks "ab " and "cd"). -/
theorem C2_counterexample :
    chunkRawF plainParse noSeg 7 ("ab  cd".toList) 3 true =
      some (["ab ".toList, "cd".toList], ["ab".toList, "cd".toList]) ∧
    (["ab ".toList, "cd".toList] : List Str).flatten ≠ "ab  cd".toList :=
  ⟨by decide, by decide⟩

/-- **C2 (amended).** In the fixed-slice mode (`useSmartSplitting = false`)
`chunkRaw` returns the maxLen-sized slices of the content and their
concatenation is exactly the input; the no-content-loss claim holds there, while
smart mode may drop seam whitespace (see the counterexample). -/
theorem C2_fixed_no_loss (parse : Str → MdNode) (segment : Str → List SegItem)
    (fuel : Nat) (content : Str) (maxLen : Nat) (h : 1 ≤ maxLen) :
    chunkRawF parse segment fuel content maxLen false =
      some (fixedSlices content maxLen, fixedSlices content maxLen) ∧
    (fixedSlices content maxLen).flatten = content := by
  constructor
  · rw [chunkRawF]
    have hz : ¬maxLen = 0 := by omega
    by_cases he : content.isEmpty = true
    · rw [if_pos he]
      rw [List.isEmpty_iff] at he
      subst he
      rw [fixedSlices, fixedSlicesF]
      rw [if_neg hz]
      rfl
    · rw [if_neg he, if_neg hz]
      simp
  · rw [fixedSlices]
    exact fixedSlicesF_flatten _ content maxLen h (by omega)

/-- Witness for the amended C2 at a concrete five-character input with budget 2. -/
theorem C2_witness :
    1 ≤ 2 ∧
    (chunkRawF plainParse noSeg 5 ("abcde".toList) 2 false =
      some (fixedSlices ("abcde".toList) 2, fixedSlices ("abcde".toList) 2) ∧
    (fixedSlices ("abcde".toList) 2).flatten = "abcde".toList) :=
  ⟨by decide, C2_fixed_no_loss plainParse noSeg 5 ("abcde".toList) 2 (by decide)⟩

/-! ### Claim C1: chunk prefix stability -/

theorem dropWhile_length_le (p : Char → Bool) (l : Str) :
    (List.dropWhile p l).length ≤ l.length := by
  induction l with
  | nil => simp
  | cons c cs ih =>
    rw [List.dropWhile_cons]
    split
    · simp only [List.length_cons]
      omega
    · simp

theorem tokenCompleteAt_ext (t s : Str) (pos : Nat) (h : pos < t.length) :
    tokenCompleteAt (t ++ s) pos =
      ((tokenCompleteAt t pos).1, (tokenCompleteAt t pos).2 ++ s) := by
  have hc1 : min pos (t ++ s).length = pos := by
    rw [List.length_append]
    omega
  have hc2 : min pos t.length = pos := by omega
  have htk : (t ++ s).take pos = t.take pos :=
    List.take_append_of_le_length (Nat.le_of_lt h)
  have hdr : (t ++ s).drop pos = t.drop pos ++ s := by
    rw [List.drop_append_eq_append_drop]
    have h0 : pos - t.length = 0 := by omega
    rw [h0, List.drop_zero]
  have hne : ¬(t.drop pos).isEmpty = true := by
    rw [List.isEmpty_iff]
    intro he
    have := congrArg List.length he
    rw [List.length_drop] at this
    simp only [List.length_nil] at this
    omega
  have hne2 : ¬(t.drop pos ++ s).isEmpty = true := by
    rw [List.isEmpty_iff]
    intro he
    rcases List.append_eq_nil.mp he with ⟨h1, _⟩
    rw [List.isEmpty_iff] at hne
    exact hne h1
  simp only [tokenCompleteAt, hc1, hc2, htk, hdr, if_neg hne, if_neg hne2]
  simp [List.append_assoc]

theorem smartAttemptVals_ext (t s : Str) (pos : Nat) (h : pos < t.length) :
    (smartAttemptVals (t ++ s) pos).completed = (smartAttemptVals t pos).completed ∧
    (((smartAttemptVals t pos).nextRemaining = [] ∧
        (smartAttemptVals (t ++ s) pos).nextRemaining = stripLeadingWs s) ∨
      (smartAttemptVals (t ++ s) pos).nextRemaining =
        (smartAttemptVals t pos).nextRemaining ++ s) := by
  simp only [smartAttemptVals, tokenCompleteAt_ext t s pos h]
  refine ⟨by trivial, ?_⟩
  by_cases hf : hasFenceLine (tokenCompleteAt t pos).1 = true
  · right
    rw [if_pos hf, if_pos hf]
  · rw [if_neg hf, if_neg hf]
    rw [stripLeadingWs, stripLeadingWs, List.dropWhile_append]
    by_cases he : (List.dropWhile isJsWs (tokenCompleteAt t pos).2).isEmpty = true
    · left
      rw [if_pos he]
      rw [List.isEmpty_iff] at he
      exact ⟨he, rfl⟩
    · right
      rw [if_neg he]

theorem smartCond_iff (t s : Str) (pos : Nat) (h : pos < t.length) :
    ((smartAttemptVals (t ++ s) pos).nextRemaining.length < (t ++ s).length ↔
      (smartAttemptVals t pos).nextRemaining.length < t.length) := by
  rcases (smartAttemptVals_ext t s pos h).2 with ⟨h1, h2⟩ | h2
  · rw [h1, h2, List.length_append]
    have hle : (stripLeadingWs s).length ≤ s.length := dropWhile_length_le isJsWs s
    constructor
    · intro _
      simp only [List.length_nil]
      omega
    · intro _
      omega
  · rw [h2, List.length_append, List.length_append]
    omega

theorem smartAttemptLoop_ext (t s : Str) (maxLen : Nat) (hm : maxLen < t.length) :
    ∀ (aFuel pos : Nat), pos ≤ maxLen →
      (smartAttemptLoop (t ++ s) maxLen aFuel pos).1 =
        (smartAttemptLoop t maxLen aFuel pos).1 ∧
      (smartAttemptLoop t maxLen aFuel pos).1 ≤ maxLen ∧
      ((smartAttemptLoop t maxLen aFuel pos).2.nextRemaining = [] ∨
        (smartAttemptLoop (t ++ s) maxLen aFuel pos).2.nextRemaining =
          (smartAttemptLoop t maxLen aFuel pos).2.nextRemaining ++ s) := by
  intro aFuel
  induction aFuel with
  | zero =>
    intro pos hpos
    simp only [smartAttemptLoop]
    refine ⟨by trivial, hpos, ?_⟩
    rcases (smartAttemptVals_ext t s pos (by omega)).2 with ⟨h1, _⟩ | h2
    · exact Or.inl h1
    · exact Or.inr h2
  | succ aLeft ih =>
    intro pos hpos
    have hvx := (smartAttemptVals_ext t s pos (by omega)).2
    have hdisj : (smartAttemptVals t pos).nextRemaining = [] ∨
        (smartAttemptVals (t ++ s) pos).nextRemaining =
          (smartAttemptVals t pos).nextRemaining ++ s := by
      rcases hvx with ⟨h1, _⟩ | h2
      · exact Or.inl h1
      · exact Or.inr h2
    simp only [smartAttemptLoop]
    by_cases hcond : (smartAttemptVals t pos).nextRemaining.length < t.length
    · rw [if_pos hcond, if_pos ((smartCond_iff t s pos (by omega)).mpr hcond)]
      exact ⟨rfl, hpos, hdisj⟩
    · rw [if_neg hcond, if_neg (fun hx => hcond ((smartCond_iff t s pos (by omega)).mp hx))]
      by_cases hcap : maxLen ≤ pos
      · rw [if_pos hcap, if_pos hcap]
        exact ⟨rfl, hpos, hdisj⟩
      · rw [if_neg hcap, if_neg hcap]
        cases aLeft with
        | zero =>
          dsimp only
          exact ⟨rfl, by omega, hdisj⟩
        | succ k =>
          dsimp only
          exact ih (min maxLen (pos + 1)) (by omega)

theorem smartStep_ext (parse : Str → MdNode) (segment : Str → List SegItem)
    (t s : Str) (maxLen : Nat) (hm1 : 1 ≤ maxLen) (hm : maxLen < t.length) :
    (smartStep parse segment (t ++ s) maxLen).1 = (smartStep parse segment t maxLen).1 ∧
    ((smartStep parse segment t maxLen).2.2 = [] ∨
      (smartStep parse segment (t ++ s) maxLen).2.2 =
        (smartStep parse segment t maxLen).2.2 ++ s) := by
  have hwin : (tokenCompleteAt (t ++ s) maxLen).1 = (tokenCompleteAt t maxLen).1 := by
    rw [tokenCompleteAt_ext t s maxLen hm]
  simp only [smartStep, hwin]
  obtain ⟨hA, hB, hC⟩ := smartAttemptLoop_ext t s maxLen hm 10
    (max 1 (min (findLexicalSafeSplitPoint parse segment
      (tokenCompleteAt t maxLen).1 maxLen 100 100) maxLen)) (by omega)
  refine ⟨?_, hC⟩
  rw [hA, List.take_append_of_le_length (le_trans hB (Nat.le_of_lt hm))]

theorem smartLoop_nil (parse : Str → MdNode) (segment : Str → List SegItem)
    (maxLen : Nat) : ∀ fuel, smartLoop parse segment maxLen fuel [] = some ([], []) := by
  intro fuel
  cases fuel <;> rfl

set_option maxHeartbeats 2000000 in
theorem smartLoop_stable (parse : Str → MdNode) (segment : Str → List SegItem)
    (maxLen : Nat) (hm1 : 1 ≤ maxLen) :
    ∀ (fuel1 : Nat) (t s : Str) (fuel2 : Nat) (C C' : List Str × List Str),
      smartLoop parse segment maxLen fuel1 t = some C →
      smartLoop parse segment maxLen fuel2 (t ++ s) = some C' →
      ∀ i, i + 1 < C.1.length → C'.1.get? i = C.1.get? i := by
  intro fuel1
  induction fuel1 with
  | zero =>
    intro t s fuel2 C C' h1 h2 i hi
    cases t with
    | nil =>
      rw [smartLoop_nil] at h1
      cases h1
      simp at hi
    | cons c cs => exact absurd h1 (by rw [smartLoop]; simp)
  | succ f ih =>
    intro t s fuel2 C C' h1 h2 i hi
    cases t with
    | nil =>
      rw [smartLoop_nil] at h1
      cases h1
      simp at hi
    | cons c cs =>
      rw [smartLoop] at h1
      by_cases hlen : (c :: cs).length ≤ maxLen
      · rw [if_pos hlen] at h1
        cases h1
        simp at hi
      · rw [if_neg hlen] at h1
        dsimp only at h1
        obtain ⟨hraw, hnext⟩ := smartStep_ext parse segment (c :: cs) s maxLen hm1 (by omega)
        have hne2 : ¬((c :: cs) ++ s).length ≤ maxLen := by
          rw [List.length_append]
          simp only [List.length_cons] at hlen ⊢
          omega
        cases fuel2 with
        | zero => exact absurd h2 (by rw [List.cons_append, smartLoop]; simp)
        | succ f2 =>
          rw [List.cons_append, smartLoop, if_neg (by rw [← List.cons_append]; exact hne2)] at h2
          rw [← List.cons_append] at h2
          dsimp only at h2
          rcases hnext with hn | hn
          · rw [hn, smartLoop_nil] at h1
            dsimp only at h1
            cases h1
            dsimp only at hi
            simp only [List.length_cons, List.length_nil] at hi
            omega
          · rw [hn] at h2
            cases hrec1 : smartLoop parse segment maxLen f
                (smartStep parse segment (c :: cs) maxLen).2.2 with
            | none =>
              rw [hrec1] at h1
              cases h1
            | some t0 =>
              rw [hrec1] at h1
              cases h1
              cases hrec2 : smartLoop parse segment maxLen f2
                  ((smartStep parse segment (c :: cs) maxLen).2.2 ++ s) with
              | none =>
                rw [hrec2] at h2
                cases h2
              | some t0' =>
                rw [hrec2] at h2
                cases h2
                rw [hraw]
                cases i with
                | zero => rfl
                | succ j =>
                  rw [List.get?_cons_succ, List.get?_cons_succ]
                  simp only [List.length_cons] at hi
                  exact ih _ s f2 t0 t0' hrec1 hrec2 j (by omega)

/-- **C1.** Chunk prefix stability: for every text `t`, suffix `s` and budget
`maxLen ≥ 1`, if smart-mode chunking of `t` yields chunks `C` and chunking of
`t ++ s` yields `C'`, then every already-finalized (non-final) raw chunk of `C`
reappears unchanged at the same index in `C'`: growing the input never changes
an earlier chunk. -/
theorem C1_prefix_stability (parse : Str → MdNode) (segment : Str → List SegItem)
    (maxLen : Nat) (hm : 1 ≤ maxLen) (t s : Str) (fuel1 fuel2 : Nat)
    (C C' : List Str × List Str)
    (h1 : chunkRawF parse segment fuel1 t maxLen true = some C)
    (h2 : chunkRawF parse segment fuel2 (t ++ s) maxLen true = some C') :
    ∀ i, i + 1 < C.1.length → C'.1.get? i = C.1.get? i := by
  rw [chunkRawF] at h1 h2
  have hz : ¬maxLen = 0 := by omega
  by_cases he : t.isEmpty = true
  · rw [if_pos he] at h1
    cases h1
    intro i hi
    simp at hi
  · have he2 : ¬(t ++ s).isEmpty = true := by
      rw [List.isEmpty_iff] at he ⊢
      intro hx
      exact he (List.append_eq_nil.mp hx).1
    rw [if_neg he, if_neg hz] at h1
    rw [if_neg he2, if_neg hz] at h2
    simp only [Bool.not_true] at h1 h2
    rw [if_neg (by simp)] at h1
    rw [if_neg (by simp)] at h2
    exact smartLoop_stable parse segment maxLen hm fuel1 t s fuel2 C C' h1 h2

/-- Witness for C1: a 12-character input with budget 10 splits as
["0123456789", "AB"]; appending "CDEFG" leaves the finalized first chunk
untouched. -/
theorem C1_witness :
    1 ≤ 10 ∧
    chunkRawF plainParse noSeg 5 ("0123456789AB".toList) 10 true =
      some (["0123456789".toList, "AB".toList],
            ["0123456789".toList, "AB".toList]) ∧
    chunkRawF plainParse noSeg 5 ("0123456789AB".toList ++ "CDEFG".toList) 10 true =
      some (["0123456789".toList, "ABCDEFG".toList],
            ["0123456789".toList, "ABCDEFG".toList]) ∧
    ∀ i, i + 1 < (["0123456789".toList, "AB".toList] : List Str).length →
      (["0123456789".toList, "ABCDEFG".toList] : List Str).get? i =
        (["0123456789".toList, "AB".toList] : List Str).get? i :=
  ⟨by decide, by decide, by decide,
    C1_prefix_stability plainParse noSeg 10 (by decide)
      ("0123456789AB".toList) ("CDEFG".toList) 5 5
      (["0123456789".toList, "AB".toList], ["0123456789".toList, "AB".toList])
      (["0123456789".toList, "ABCDEFG".toList], ["0123456789".toList, "ABCDEFG".toList])
      (by decide) (by decide)⟩
